import Mathlib

/-!
Verification of the expense-tracker core of this repository: the ordered
collection query engine (`expense.py`), the CSV/JSON persistence layer
(`storage.py`), and the id-assignment logic of the `add`/`delete` command
handlers (`cli.py`).  Python values are embedded as follows: `int` is `ℤ`
(or `ℕ` for indices), `str` is `String`, `datetime.date` is the `Date`
structure below, and `float` is represented by its canonical `repr` string
(Python guarantees `float(repr(x)) == x` and `repr` is injective on floats,
so equality of floats coincides with equality of these strings).
-/

namespace ExpenseTracker

/-- A Python `float`, represented by its canonical `repr` string. -/
structure PyFloat where
  val : String
deriving DecidableEq

/-- Model of `datetime.date`: a calendar date (year, month, day).  The bounds that the
Python `date` constructor enforces are captured by `Date.Valid` below. -/
structure Date where
  year : ℕ
  month : ℕ
  day : ℕ
deriving DecidableEq

/-- Gregorian leap-year rule, as used by `datetime.date`. -/
def isLeapYear (y : ℕ) : Bool :=
  y % 4 == 0 && (y % 100 != 0 || y % 400 == 0)

/-- Number of days of month `m` of year `y` (Gregorian calendar). -/
def daysInMonth (y m : ℕ) : ℕ :=
  if m = 2 then (if isLeapYear y then 29 else 28)
  else if m = 4 ∨ m = 6 ∨ m = 9 ∨ m = 11 then 30
  else 31

/-- The validation performed by the `datetime.date` constructor:
`1 <= year <= 9999`, `1 <= month <= 12`, `1 <= day <= days in month`. -/
def Date.Valid (d : Date) : Prop :=
  1 ≤ d.year ∧ d.year ≤ 9999 ∧ 1 ≤ d.month ∧ d.month ≤ 12 ∧
    1 ≤ d.day ∧ d.day ≤ daysInMonth d.year d.month

instance (d : Date) : Decidable d.Valid := by
  unfold Date.Valid
  infer_instance

/-- The `Expense` dataclass of `expense.py`: five fields
`(id, description, amount, category, create_at)`. -/
structure Expense where
  id : ℤ
  description : String
  amount : PyFloat
  category : String
  create_at : Date
deriving DecidableEq

instance : Inhabited Expense :=
  ⟨⟨0, "", ⟨"0.0"⟩, "", ⟨1970, 1, 1⟩⟩⟩

/-- Embedding of `_first_ge_index` of `expense.py`: binary search for the first index in
`[low, high)` whose key is `≥ target`.  In the source, `mid = low + high >> 1`
parses as `(low + high) >> 1`, i.e. `(low + high) / 2`; `seq[mid]` is embedded
as `seq.getD mid default` (the loop only ever reads indices `< len(seq)` when
`high ≤ len(seq)`). -/
def first_ge_index {α β : Type} [Inhabited α] [LinearOrder β]
    (seq : List α) (target : β) (low high : ℕ) (key : α → β) : ℕ :=
  if h : low < high then
    let mid := (low + high) / 2
    if key (seq.getD mid default) < target then
      first_ge_index seq target (mid + 1) high key
    else
      first_ge_index seq target low mid key
  else low
termination_by high - low
decreasing_by
  · omega
  · omega

/-- Embedding of `find_by_id` of `expense.py`: binary search for the expense with the
given id; `None` (here `none`) when absent. -/
def find_by_id (expenses : List Expense) (id_ : ℤ) : Option ℕ :=
  let length := expenses.length
  let index := first_ge_index expenses id_ 0 length (fun x => x.id)
  if index = length ∨ (expenses.getD index default).id ≠ id_ then none
  else some index

/-- Python exceptions observable from the embedded functions.  `systemExit`
carries the CSV line number quoted in the `SystemExit` message raised by the
`except csv.Error` handlers of `load_expenses`; `valueError` and `typeError`
are ordinary uncaught exceptions carrying no line information. -/
inductive PyErr : Type
  | typeError : PyErr
  | valueError : PyErr
  | systemExit : ℕ → PyErr
deriving DecidableEq

/-- The date key used by `filter_by_date`: the inner function
`year_and_month`, returning the tuple `(year, month)` under Python's
lexicographic tuple comparison. -/
def year_and_month (e : Expense) : Lex (ℕ × ℕ) :=
  toLex (e.create_at.year, e.create_at.month)

/-- Embedding of `filter_by_date` of `expense.py`.  `month = none, year = none` raises
`TypeError`; `month = none, year = some y` selects the whole year `y`;
otherwise the month `m` of `year.getD todayYear` (the source defaults a
missing year to `date.today().year`, passed here as `todayYear`).  The
Python slice `expenses[start:stop]` is `(expenses.take stop).drop start`. -/
def filter_by_date (expenses : List Expense) (month : Option ℕ)
    (year : Option ℕ) (todayYear : ℕ) : Except PyErr (List Expense) :=
  let length := expenses.length
  match month with
  | none =>
    match year with
    | none => .error .typeError
    | some y =>
      let start := first_ge_index expenses (toLex (y, 1)) 0 length year_and_month
      let stop := first_ge_index expenses (toLex (y + 1, 1)) start length year_and_month
      .ok ((expenses.take stop).drop start)
  | some m =>
    let y := (year.getD todayYear)
    let start := first_ge_index expenses (toLex (y, m)) 0 length year_and_month
    let stop := first_ge_index expenses (toLex (y, m + 1)) start length year_and_month
    .ok ((expenses.take stop).drop start)

/-- The id assigned by `CLI.handle_add` in `cli.py`:
`expenses[-1].id + 1 if expenses else 1` (the id of the *last* record plus
one, which is `max + 1` only while the ledger stays sorted by id). -/
def new_expense_id (expenses : List Expense) : ℤ :=
  match expenses.getLast? with
  | some e => e.id + 1
  | none => 1

/-- Embedding of `CLI.handle_add` at the ledger level: `append_expense` writes the new
record, carrying the assigned id, after the existing rows. -/
def handle_add (expenses : List Expense) (description : String)
    (amount : PyFloat) (category : String) (today : Date) : List Expense :=
  expenses ++ [⟨new_expense_id expenses, description, amount, category, today⟩]

/-- Embedding of `CLI.handle_delete` at the ledger level: look up the index with
`find_by_id`; warn-and-no-op when absent, otherwise `expenses.pop(index)`. -/
def handle_delete (expenses : List Expense) (id_ : ℤ) : List Expense :=
  match find_by_id expenses id_ with
  | none => expenses
  | some i => expenses.eraseIdx i

/-! ### CSV text layer (`csv.writer` / `csv.reader` with `QUOTE_NONNUMERIC`)

With `quoting=csv.QUOTE_NONNUMERIC` the writer quotes every non-numeric
field and writes `int`/`float` fields bare; the reader returns quoted
fields as `str` and converts every bare field with `float()`.  A cell is
therefore either a bare numeric token or a quoted string. -/

/-- A CSV cell: `num tok` is a bare (unquoted) field holding the token text
of a numeric value; `str s` is a quoted field holding the string `s`. -/
inductive Cell : Type
  | num : String → Cell
  | str : String → Cell
deriving DecidableEq

/-- Quote escaping used by `csv.writer` inside quoted fields:
each `"` is doubled. -/
def escapeQuotes : List Char → List Char
  | [] => []
  | c :: rest =>
    if c = '"' then '"' :: '"' :: escapeQuotes rest
    else c :: escapeQuotes rest

/-- Encoding of one cell by `csv.writer`: numeric tokens bare, strings
quoted with `"` doubled. -/
def encodeCell : Cell → List Char
  | .num tok => tok.data
  | .str s => '"' :: (escapeQuotes s.data ++ ['"'])

/-- Cells of one record joined by the `,` delimiter. -/
def encodeCells : List Cell → List Char
  | [] => []
  | [c] => encodeCell c
  | c :: rest => encodeCell c ++ ',' :: encodeCells rest

/-- Encoding of one record: cells joined by `,`, terminated by the default
`csv.writer` line terminator `\r\n`. -/
def encodeRow (cells : List Cell) : List Char :=
  encodeCells cells ++ ['\r', '\n']

/-- The full text written for a list of records. -/
def writeCSV (rows : List (List Cell)) : List Char :=
  (rows.map encodeRow).flatten

/-- Scan the body of a quoted field (the opening `"` already consumed):
`""` is an escaped quote, a lone `"` closes the field.  Returns the field
content and the unconsumed remainder. -/
def scanQuoted : List Char → List Char × List Char
  | [] => ([], [])
  | c :: rest =>
    if c = '"' then
      match rest with
      | [] => ([], [])
      | c2 :: rest2 =>
        if c2 = '"' then
          let p := scanQuoted rest2
          ('"' :: p.1, p.2)
        else ([], rest)
    else
      let p := scanQuoted rest
      (c :: p.1, p.2)

/-- Scan a bare (unquoted) field: everything up to the first `,`, `\r` or
`\n`.  Returns the token and the unconsumed remainder (which starts with
the delimiter, if any). -/
def scanBare : List Char → List Char × List Char
  | [] => ([], [])
  | c :: rest =>
    if c = ',' ∨ c = '\r' ∨ c = '\n' then ([], c :: rest)
    else
      let p := scanBare rest
      (c :: p.1, p.2)

/-- Parse one field: a leading `"` starts a quoted field (read back as
`str`), anything else is a bare field (converted by the reader with
`float()`, represented as a `num` token). -/
def parseField (s : List Char) : Cell × List Char :=
  match s with
  | [] => (Cell.num ⟨[]⟩, [])
  | c :: rest =>
    if c = '"' then
      let p := scanQuoted rest
      (Cell.str ⟨p.1⟩, p.2)
    else
      let p := scanBare (c :: rest)
      (Cell.num ⟨p.1⟩, p.2)

/-- Parse one record: fields separated by `,` until a line end (`\r\n`,
`\n`, or a lone `\r`) or the end of input.  The fuel only bounds the number
of fields in the record; every additional field consumes at least its
separating comma, so `length + 1` fuel (as passed by `parseRow`) always
suffices.  A field followed by any other character can only arise from
quoting malformed in a way `csv.writer` never produces; the record is
ended there. -/
def parseRowAux : ℕ → List Char → List Cell × List Char
  | 0, _ => ([], [])
  | fuel + 1, s =>
    let p := parseField s
    match p.2 with
    | [] => ([p.1], [])
    | c :: r2 =>
      if c = ',' then
        let q := parseRowAux fuel r2
        (p.1 :: q.1, q.2)
      else if c = '\r' then
        match r2 with
        | [] => ([p.1], [])
        | c2 :: r3 => if c2 = '\n' then ([p.1], r3) else ([p.1], r2)
      else if c = '\n' then ([p.1], r2)
      else ([p.1], [])

/-- Parse one record starting at `s`. -/
def parseRow (s : List Char) : List Cell × List Char :=
  parseRowAux (s.length + 1) s

/-- Parse a whole CSV document into records.  Blank lines yield no record,
as with `csv.reader`.  The fuel bounds the number of records plus skipped
blank lines; every iteration consumes at least one character, so the
`length + 1` fuel passed by `parseCSV` always suffices. -/
def parseCSVAux : ℕ → List Char → List (List Cell)
  | 0, _ => []
  | fuel + 1, s =>
    match s with
    | [] => []
    | c :: rest =>
      if c = '\r' then
        match rest with
        | [] => []
        | c2 :: rest2 =>
          if c2 = '\n' then parseCSVAux fuel rest2 else parseCSVAux fuel rest
      else if c = '\n' then parseCSVAux fuel rest
      else
        let p := parseRow (c :: rest)
        p.1 :: parseCSVAux fuel p.2

/-- Parse a CSV document. -/
def parseCSV (s : List Char) : List (List Cell) :=
  parseCSVAux (s.length + 1) s

/-- Well-formedness of a bare numeric token for the CSV text layer: it is
nonempty, does not begin with a quote, and contains no separator or line
break (every token `csv.writer` writes for an `int` or `float` satisfies
this). -/
def NumTokOK (tok : List Char) : Prop :=
  tok ≠ [] ∧ tok.head? ≠ some '"' ∧ ∀ c ∈ tok, c ≠ ',' ∧ c ≠ '\r' ∧ c ≠ '\n'

instance (l : List Char) : Decidable (NumTokOK l) := by
  unfold NumTokOK
  infer_instance

/-- Well-formedness of a cell for exact round-tripping through the CSV
text layer. -/
def CellOK : Cell → Prop
  | .num tok => NumTokOK tok.data
  | .str _ => True

/-- A delimiter context: the remainder after a field is empty or starts
with a separator or line break. -/
def DelimStart (r : List Char) : Prop :=
  r.head? = none ∨ r.head? = some ',' ∨ r.head? = some '\r' ∨ r.head? = some '\n'

/-! ### Decimal numerals, Python `int`/`float` tokens, and dates -/

/-- ASCII decimal digit test (`'0'` to `'9'`). -/
def isDigitChar (c : Char) : Bool :=
  48 ≤ c.toNat && c.toNat ≤ 57

/-- The decimal digits of `n`, most significant first — the text Python's
`str` produces for a nonnegative integer.  Structured as fuel-indexed
recursion (`fuel ≥ n` always suffices since `n / 10 < n` for `n ≥ 10`). -/
def natDigitsAux : ℕ → ℕ → List Char
  | 0, n => [Char.ofNat (48 + n % 10)]
  | fuel + 1, n =>
    if n < 10 then [Char.ofNat (48 + n)]
    else natDigitsAux fuel (n / 10) ++ [Char.ofNat (48 + n % 10)]

/-- Decimal representation of a natural number (`str(n)` for `n ≥ 0`). -/
def natDigits (n : ℕ) : List Char :=
  natDigitsAux n n

/-- Numeric value of a decimal digit character. -/
def digitVal (c : Char) : ℕ := c.toNat - 48

/-- Value of a string of decimal digits (the core of Python's `int(str)`).
Leading zeros are allowed and ignored, as `int` does. -/
def digitsToNat (l : List Char) : ℕ :=
  l.foldl (fun acc c => acc * 10 + digitVal c) 0

/-- The text `str(n)` for a Python `int`: a minus sign for negatives, then the
decimal digits. -/
def intRepr (n : ℤ) : List Char :=
  if n < 0 then '-' :: natDigits n.natAbs else natDigits n.toNat

/-- Python `int(str)` on a stripped token: an optional sign followed by at
least one decimal digit, otherwise `None` (ValueError).  (Surrounding
whitespace and `_` digit separators, which `int` also accepts, are not
modeled; no text this development evaluates contains them.) -/
def pyIntLit (l : List Char) : Option ℤ :=
  match l with
  | [] => none
  | c :: rest =>
    if c = '-' then
      if rest ≠ [] ∧ rest.all isDigitChar then some (-(digitsToNat rest : ℤ)) else none
    else if c = '+' then
      if rest ≠ [] ∧ rest.all isDigitChar then some ((digitsToNat rest : ℤ)) else none
    else if (c :: rest).all isDigitChar then some ((digitsToNat (c :: rest) : ℤ))
    else none

/-- Python `int(str)` as used on quoted id fields: ValueError when the text
is not an integer literal. -/
def pyInt (l : List Char) : Except PyErr ℤ :=
  match pyIntLit l with
  | some n => .ok n
  | none => .error .valueError

/-- Left-pad with `'0'` to width `k` (Python's `%02d`/`%04d` date fields). -/
def padZeros (k : ℕ) (l : List Char) : List Char :=
  List.replicate (k - l.length) '0' ++ l

/-- The text `str(date)`, i.e. `date.isoformat()`: `YYYY-MM-DD` with zero-padded
fields. -/
def dateRepr (d : Date) : List Char :=
  padZeros 4 (natDigits d.year) ++
    '-' :: (padZeros 2 (natDigits d.month) ++ '-' :: padZeros 2 (natDigits d.day))

/-- Python `str.split("-")` for the single-character separator `"-"`. -/
def splitDash (s : List Char) : List (List Char) :=
  match s with
  | [] => [[]]
  | c :: rest =>
    if c = '-' then [] :: splitDash rest
    else
      match splitDash rest with
      | part :: parts => (c :: part) :: parts
      | [] => [[c]]

/-- The `datetime.date` constructor: validates ranges, raising ValueError
outside them. -/
def date_ctor (y m d : ℤ) : Except PyErr Date :=
  if 1 ≤ y ∧ y ≤ 9999 ∧ 1 ≤ m ∧ m ≤ 12 ∧ 1 ≤ d ∧
      d ≤ (daysInMonth y.toNat m.toNat : ℤ) then
    .ok ⟨y.toNat, m.toNat, d.toNat⟩
  else .error .valueError

/-- Application of `int()` to each piece of the split date string, left to right,
stopping at the first error — the evaluation of the generator
`(int(item) for item in date_string.split("-"))` under `*` unpacking. -/
def mapPyInt : List (List Char) → Except PyErr (List ℤ)
  | [] => .ok []
  | x :: xs =>
    match pyInt x with
    | .error e => .error e
    | .ok n =>
      match mapPyInt xs with
      | .error e => .error e
      | .ok ns => .ok (n :: ns)

/-- Embedding of `_str2date` of `storage.py`: `date(*(int(item) for item in
date_string.split("-")))`.  All `int` conversions run first, then the
`date` call checks arity (TypeError) and ranges (ValueError). -/
def str2date (s : List Char) : Except PyErr Date :=
  match mapPyInt (splitDash s) with
  | .error e => .error e
  | .ok [y, m, d] => date_ctor y m d
  | .ok _ => .error .typeError

/-- Sign characters accepted by Python numeric literals. -/
def isSign (c : Char) : Bool := c = '+' || c = '-'

/-- Strip one optional leading sign. -/
def dropSign (l : List Char) : List Char :=
  match l with
  | [] => []
  | c :: rest => if isSign c then rest else l

/-- Mantissa of a finite `float()` literal: digits with at most one `.` and
at least one digit. -/
def mantissaOK (l : List Char) : Bool :=
  let ip := l.takeWhile isDigitChar
  let rest := l.drop ip.length
  match rest with
  | [] => !ip.isEmpty
  | c :: frac => c == '.' && frac.all isDigitChar && (!ip.isEmpty || !frac.isEmpty)

/-- Exponent suffix of a `float()` literal (after `e`/`E`): optional sign
then at least one digit. -/
def expOK (l : List Char) : Bool :=
  match l with
  | [] => false
  | c :: rest =>
    if isSign c then !rest.isEmpty && rest.all isDigitChar
    else (c :: rest).all isDigitChar

/-- A finite `float()` literal body: mantissa, optionally `e`/`E` and an
exponent. -/
def finiteTokOK (l : List Char) : Bool :=
  let m := l.takeWhile (fun c => !(c == 'e' || c == 'E'))
  let rest := l.drop m.length
  match rest with
  | [] => mantissaOK m
  | _ :: e => mantissaOK m && expOK e

/-- Acceptance test of Python `float(str)` (used by the `csv` reader with
`QUOTE_NONNUMERIC` on every unquoted field): an optional sign followed by a
finite literal, or case-insensitive `inf`/`infinity`/`nan`. -/
def isFloatToken (l : List Char) : Bool :=
  let b := dropSign l
  finiteTokOK b || b.map Char.toLower == ['i', 'n', 'f'] ||
    b.map Char.toLower == ['i', 'n', 'f', 'i', 'n', 'i', 't', 'y'] ||
    b.map Char.toLower == ['n', 'a', 'n']

/-- Number of binary digits of `n` (0 for 0), fuel-indexed (`fuel ≥ n`
suffices). -/
def bitLenAux : ℕ → ℕ → ℕ
  | _, 0 => 0
  | 0, _ + 1 => 1
  | fuel + 1, n + 1 => bitLenAux fuel ((n + 1) / 2) + 1

/-- Number of binary digits of `n`. -/
def bitLen (n : ℕ) : ℕ := bitLenAux n n

/-- IEEE-754 round-to-nearest, ties-to-even of the integer `n` to 53
significant bits: the exact value of the Python double produced by
`float()` on the decimal literal of `n` (floats have 53-bit significands;
overflow to infinity near `2^1024` is not modeled — no claim involves
integers of that magnitude). -/
def roundSig53 (n : ℕ) : ℕ :=
  if n < 2 ^ 53 then n
  else
    let k := bitLen n - 53
    let q := n / 2 ^ k
    let r := n % 2 ^ k
    let q' := if 2 * r > 2 ^ k ∨ (2 * r = 2 ^ k ∧ q % 2 = 1) then q + 1 else q
    q' * 2 ^ k

/-- The value `int(float(str(n)))` for a Python integer `n`: the nearest double,
truncated back to an integer (exact for `|n| ≤ 2^53`). -/
def floatIntRound (n : ℤ) : ℤ :=
  if n < 0 then -(roundSig53 n.natAbs : ℤ) else (roundSig53 n.toNat : ℤ)

/-! ### `load_expenses` / `save_expenses` of `storage.py`

Files are modeled as their text (`List Char`); a missing file is `none`.
The `except csv.Error` handlers in `load_expenses` would produce a
`SystemExit` whose message quotes `reader.line_num`, but `csv.Error` is
never raised for ordinary text content (it arises only for conditions such
as NUL bytes or oversized fields), so no `systemExit` value is ever
produced here; the conversion errors that malformed rows actually raise
(`ValueError` from `float()`/`int()`/unpacking/`date()`, `TypeError` from
wrong arity) are not caught by those handlers and escape as ordinary
uncaught exceptions. -/

/-- The value `int(value)` for the id column when the cell was unquoted: the `csv`
reader has already applied `float()`, so the stored value is a double and
`int()` truncates it.  For integer-literal tokens this is
round-to-nearest-double followed by exact truncation.  Non-integer float
tokens (`"1.5"`, `"1e3"`, `"inf"`, `"nan"`) in the id column are never
written by `save_expenses` and are reached by no claim; Python would
truncate (or raise for `inf`/`nan`), modeled here as an error. -/
def numTokenToInt (l : List Char) : Except PyErr ℤ :=
  match pyIntLit l with
  | some n => .ok (floatIntRound n)
  | none => .error .valueError

/-- The id field: unquoted cells are doubles (truncated by `int()`), quoted
cells are strings parsed by `int(str)`. -/
def cellToId : Cell → Except PyErr ℤ
  | .num tok => numTokenToInt tok.data
  | .str s => pyInt s.data

/-- A `str`-annotated field (`description`, `category`).  An unquoted cell
would store a `float` in a `str`-annotated slot — the dataclass does not
check this at runtime, but such a value is unrepresentable in this typed
embedding; `save_expenses` never writes one. -/
def cellToStr : Cell → Except PyErr String
  | .str s => .ok s
  | .num _ => .error .typeError

/-- The `amount` field: the reader's `float()` value of an unquoted cell,
identified with its token (exact for the canonical reprs `save_expenses`
writes).  A quoted cell would store a `str` in the `float`-annotated slot
(see `cellToStr`). -/
def cellToAmount : Cell → Except PyErr PyFloat
  | .num tok => .ok ⟨tok⟩
  | .str _ => .error .typeError

/-- The `create_at` field: `_str2date` on the cell text.  An unquoted cell
would be a `float`, on which `.split` raises (AttributeError). -/
def cellToDate : Cell → Except PyErr Date
  | .str s => str2date s.data
  | .num _ => .error .typeError

/-- The conversion the `csv` reader itself performs on each cell with
`QUOTE_NONNUMERIC`: every unquoted cell must parse as a `float`. -/
def cellReadOK : Cell → Bool
  | .num tok => isFloatToken tok.data
  | .str _ => true

/-- The tuple `Expense.fields()`: the header row written (all strings, hence all
quoted). -/
def header_row : List Cell :=
  [.str "id", .str "description", .str "amount", .str "category", .str "create_at"]

/-- The CSV cells written for one expense by `writer.writerow(exp.to_tuple())`
under `QUOTE_NONNUMERIC`: `id` and `amount` are numeric (bare), the other
three are strings (quoted); the `date` object is stringified as
`YYYY-MM-DD`. -/
def expense_row (e : Expense) : List Cell :=
  [.num ⟨intRepr e.id⟩, .str e.description, .num e.amount.val,
    .str e.category, .str ⟨dateRepr e.create_at⟩]

/-- Conversion of one already-parsed CSV row to an `Expense`, in Python's
evaluation order: the reader's `float()` conversions, the unpacking
`id_, *middle, create_at = row` (ValueError when fewer than two fields),
`int(id_)`, `_str2date(create_at)`, then the `Expense(...)` call itself
(TypeError when the five fields are not matched). -/
def row_to_expense (cells : List Cell) : Except PyErr Expense :=
  if cells.all cellReadOK then
    match cells with
    | [] => .error .valueError
    | [_] => .error .valueError
    | c1 :: c2 :: rest =>
      match cellToId c1 with
      | .error e => .error e
      | .ok id_ =>
        match cellToDate ((c2 :: rest).getLast (List.cons_ne_nil c2 rest)) with
        | .error e => .error e
        | .ok dt =>
          match rest with
          | [am, ca, _] =>
            match cellToStr c2, cellToAmount am, cellToStr ca with
            | .ok de, .ok amt, .ok cat => .ok ⟨id_, de, amt, cat, dt⟩
            | .error e, _, _ => .error e
            | .ok _, .error e, _ => .error e
            | .ok _, .ok _, .error e => .error e
          | _ => .error .typeError
  else .error .valueError

/-- Conversion of a list of rows, stopping at the first error — the
`expenses.extend(Expense(...) for ... in reader)` loop. -/
def rows_to_expenses : List (List Cell) → Except PyErr (List Expense)
  | [] => .ok []
  | r :: rs =>
    match row_to_expense r with
    | .error e => .error e
    | .ok e =>
      match rows_to_expenses rs with
      | .error e' => .error e'
      | .ok es => .ok (e :: es)

/-- Embedding of `save_expenses`: the text written to the CSV file — an optional header
row followed by one row per expense. -/
def save_expenses (expenses : List Expense) (include_header : Bool) : List Char :=
  writeCSV ((if include_header then [header_row] else []) ++ expenses.map expense_row)

/-- Embedding of `load_expenses`: a missing file is an empty ledger; an empty file reads
as empty; a first row equal to `Expense.fields()` is skipped as a header;
every other row converts via `row_to_expense` (the first row's separate
handling in the source only adds a dead `except csv.Error` wrapper, so it
converts exactly like the rest). -/
def load_expenses (file : Option (List Char)) : Except PyErr (List Expense) :=
  match file with
  | none => .ok []
  | some text =>
    match parseCSV text with
    | [] => .ok []
    | first :: rest =>
      if first = header_row then rows_to_expenses rest
      else rows_to_expenses (first :: rest)

/-- The field-level effect of one save/load cycle: only the id can change,
by the double round trip `int(float(str(id)))`. -/
def id_read_back (e : Expense) : Expense :=
  { e with id := floatIntRound e.id }

instance {ε α : Type} [DecidableEq ε] [DecidableEq α] : DecidableEq (Except ε α)
  | .error x, .error y =>
    if h : x = y then .isTrue (by rw [h])
    else .isFalse (by intro hc; injection hc; contradiction)
  | .error _, .ok _ => .isFalse (by intro hc; exact Except.noConfusion hc)
  | .ok _, .error _ => .isFalse (by intro hc; exact Except.noConfusion hc)
  | .ok x, .ok y =>
    if h : x = y then .isTrue (by rw [h])
    else .isFalse (by intro hc; injection hc; contradiction)

/-! ### `load_budgets` / JSON (`storage.py` with Python's `json` module)

Python values deserialized from JSON are modeled by `JVal`; floats are
represented by their repr string as elsewhere (`inf`, `-inf`, `nan` for
the specials, which Python's `json` accepts as `Infinity`, `-Infinity`,
`NaN`).  Objects become association lists in source order (Python's `dict`
preserves insertion order). -/

inductive JVal : Type
  | null : JVal
  | bool : Bool → JVal
  | int : ℤ → JVal
  | float : String → JVal
  | str : String → JVal
  | arr : List JVal → JVal
  | obj : List (String × JVal) → JVal

/-- Skip JSON whitespace. -/
def skipWs (l : List Char) : List Char :=
  match l with
  | [] => []
  | c :: rest =>
    if c = ' ' ∨ c = '\t' ∨ c = '\n' ∨ c = '\r' then skipWs rest else l

/-- Consume an expected literal keyword, returning the remainder. -/
def takeLit : List Char → List Char → Option (List Char)
  | [], rest => some rest
  | _ :: _, [] => none
  | k :: ks, c :: rest => if c = k then takeLit ks rest else none

/-- Value of a hexadecimal digit. -/
def hexVal (c : Char) : Option ℕ :=
  if isDigitChar c then some (c.toNat - 48)
  else if 97 ≤ c.toNat ∧ c.toNat ≤ 102 then some (c.toNat - 87)
  else if 65 ≤ c.toNat ∧ c.toNat ≤ 70 then some (c.toNat - 55)
  else none

/-- Body of a JSON string after the opening quote: everything up to the
closing quote, decoding the escapes `\" \\ \/ \b \f \n \r \t \uXXXX`
(surrogate pairing of `\u` escapes is not modeled) and rejecting raw
control characters, as Python's strict decoder does. -/
def parseJStringAux : List Char → Option (List Char × List Char)
  | [] => none
  | c :: rest =>
    if c = '"' then some ([], rest)
    else if c = '\\' then
      match rest with
      | [] => none
      | e :: rest2 =>
        if e = 'u' then
          match rest2 with
          | h1 :: h2 :: h3 :: h4 :: rest3 =>
            match hexVal h1, hexVal h2, hexVal h3, hexVal h4 with
            | some v1, some v2, some v3, some v4 =>
              match parseJStringAux rest3 with
              | some (s, r) =>
                some (Char.ofNat (((v1 * 16 + v2) * 16 + v3) * 16 + v4) :: s, r)
              | none => none
            | _, _, _, _ => none
          | _ => none
        else
          match
            (if e = '"' then some '"'
             else if e = '\\' then some '\\'
             else if e = '/' then some '/'
             else if e = 'b' then some (Char.ofNat 8)
             else if e = 'f' then some (Char.ofNat 12)
             else if e = 'n' then some '\n'
             else if e = 'r' then some '\r'
             else if e = 't' then some '\t'
             else none) with
          | some d =>
            match parseJStringAux rest2 with
            | some (s, r) => some (d :: s, r)
            | none => none
          | none => none
    else if c.toNat < 32 then none
    else
      match parseJStringAux rest with
      | some (s, r) => some (c :: s, r)
      | none => none

/-- Validation of a JSON number token: `-? (0 | [1-9][0-9]*) (. [0-9]+)?
((e|E) (+|-)? [0-9]+)?`. -/
def jsonNumOK (tok : List Char) : Bool :=
  let t1 := match tok with
    | c :: r => if c = '-' then r else tok
    | [] => tok
  let ip := t1.takeWhile isDigitChar
  let t2 := t1.drop ip.length
  let intOK := !ip.isEmpty && (ip.length == 1 || ip.head? != some '0')
  let fr : Bool × List Char :=
    match t2 with
    | c :: r =>
      if c = '.' then
        let fp := r.takeWhile isDigitChar
        (!fp.isEmpty, r.drop fp.length)
      else (true, t2)
    | [] => (true, t2)
  let expOK2 : Bool :=
    match fr.2 with
    | [] => true
    | c :: r =>
      if c = 'e' ∨ c = 'E' then
        let r2 := match r with
          | c2 :: rr => if c2 = '+' ∨ c2 = '-' then rr else r
          | [] => r
        !r2.isEmpty && r2.all isDigitChar
      else false
  intOK && fr.1 && expOK2

/-- Does a validated number token denote a Python `int` (no fraction or
exponent)? -/
def jsonIntTok (tok : List Char) : Bool :=
  tok.all (fun c => isDigitChar c || c == '-')

/-- Value of a validated integer token. -/
def jsonIntVal (tok : List Char) : ℤ :=
  match tok with
  | c :: r => if c = '-' then -(digitsToNat r : ℤ) else (digitsToNat tok : ℤ)
  | [] => 0

/-- Parse a JSON number greedily (all characters that can occur in a number
token) and validate; integer tokens become Python `int`s, others `float`s
(represented by their token). -/
def parseNumber (l : List Char) : Option (JVal × List Char) :=
  let tok := l.takeWhile
    (fun c => isDigitChar c || c == '.' || c == 'e' || c == 'E' || c == '+' || c == '-')
  let rest := l.drop tok.length
  if jsonNumOK tok then
    if jsonIntTok tok then some (.int (jsonIntVal tok), rest)
    else some (.float ⟨tok⟩, rest)
  else none

mutual

/-- Parse one JSON value (Python `json.loads` grammar, including the
non-standard `NaN`/`Infinity`/`-Infinity` that Python accepts by default).
The fuel only bounds recursion depth plus element count; every unit of fuel
spent consumes input, so the `2 * length + 2` passed by `json_loads` always
suffices. -/
def parseJVal : ℕ → List Char → Option (JVal × List Char)
  | 0, _ => none
  | fuel + 1, l =>
    match skipWs l with
    | [] => none
    | c :: rest =>
      if c = 'n' then
        match takeLit ['u', 'l', 'l'] rest with
        | some r => some (.null, r)
        | none => none
      else if c = 't' then
        match takeLit ['r', 'u', 'e'] rest with
        | some r => some (.bool true, r)
        | none => none
      else if c = 'f' then
        match takeLit ['a', 'l', 's', 'e'] rest with
        | some r => some (.bool false, r)
        | none => none
      else if c = 'N' then
        match takeLit ['a', 'N'] rest with
        | some r => some (.float "nan", r)
        | none => none
      else if c = 'I' then
        match takeLit ['n', 'f', 'i', 'n', 'i', 't', 'y'] rest with
        | some r => some (.float "inf", r)
        | none => none
      else if c = '-' ∧ rest.head? = some 'I' then
        match takeLit ['I', 'n', 'f', 'i', 'n', 'i', 't', 'y'] rest with
        | some r => some (.float "-inf", r)
        | none => none
      else if c = '"' then
        match parseJStringAux rest with
        | some (s, r) => some (.str ⟨s⟩, r)
        | none => none
      else if c = '[' then
        match skipWs rest with
        | ']' :: r2 => some (.arr [], r2)
        | r1 =>
          match parseJArr fuel r1 with
          | some (vs, r2) => some (.arr vs, r2)
          | none => none
      else if c = '{' then
        match skipWs rest with
        | '}' :: r2 => some (.obj [], r2)
        | r1 =>
          match parseJObj fuel r1 with
          | some (ms, r2) => some (.obj ms, r2)
          | none => none
      else parseNumber (c :: rest)

/-- Parse the elements of a nonempty JSON array, consuming the closing
bracket. -/
def parseJArr : ℕ → List Char → Option (List JVal × List Char)
  | 0, _ => none
  | fuel + 1, l =>
    match parseJVal fuel l with
    | none => none
    | some (v, r) =>
      match skipWs r with
      | ',' :: r2 =>
        match parseJArr fuel r2 with
        | some (vs, r3) => some (v :: vs, r3)
        | none => none
      | ']' :: r2 => some ([v], r2)
      | _ => none

/-- Parse the members of a nonempty JSON object, consuming the closing
brace. -/
def parseJObj : ℕ → List Char → Option (List (String × JVal) × List Char)
  | 0, _ => none
  | fuel + 1, l =>
    match skipWs l with
    | '"' :: rest =>
      match parseJStringAux rest with
      | none => none
      | some (k, r) =>
        match skipWs r with
        | ':' :: r2 =>
          match parseJVal fuel r2 with
          | none => none
          | some (v, r3) =>
            match skipWs r3 with
            | ',' :: r4 =>
              match parseJObj fuel r4 with
              | some (ms, r5) => some ((⟨k⟩, v) :: ms, r5)
              | none => none
            | '}' :: r4 => some ([(⟨k⟩, v)], r4)
            | _ => none
        | _ => none
    | _ => none

end

/-- Python `json.load`: parse one value and require only whitespace after
it ("Extra data" otherwise); `none` models `json.JSONDecodeError`. -/
def json_loads (s : List Char) : Option JVal :=
  match parseJVal (2 * s.length + 2) s with
  | none => none
  | some (v, r) => if skipWs r = [] then some v else none

/-- The default budget table `[None] + [float("inf")] * 12`. -/
def default_budgets : JVal :=
  .arr (.null :: List.replicate 12 (.float "inf"))

/-- Embedding of `load_budgets` of `storage.py`: a missing file or undecodable JSON
resolves to the default table; otherwise whatever `json.load` parsed is
returned as-is. -/
def load_budgets (file : Option (List Char)) : JVal :=
  match file with
  | none => default_budgets
  | some text =>
    match json_loads text with
    | some v => v
    | none => default_budgets

/-! ### Theorems -/

/-- Core lower-bound specification of `first_ge_index`, shared by the proofs
about `find_by_id` and `filter_by_date`: the result is in `[low, high]`,
every index strictly before it has key `< target`, and if the result is
`< high` then its key is `≥ target`.  The sortedness hypothesis is phrased
with bounded quantifiers so that it is decidable on concrete inputs. -/
theorem first_ge_index_correct {α β : Type} [Inhabited α] [LinearOrder β]
    (seq : List α) (target : β) (low high : ℕ) (key : α → β)
    (hsorted : ∀ j, j < high → ∀ i, i ≤ j → low ≤ i →
      key (seq.getD i default) ≤ key (seq.getD j default)) :
    (low ≤ high → low ≤ first_ge_index seq target low high key ∧
      first_ge_index seq target low high key ≤ high ∧
      (∀ j, low ≤ j → j < first_ge_index seq target low high key →
        key (seq.getD j default) < target) ∧
      (first_ge_index seq target low high key < high →
        target ≤ key (seq.getD (first_ge_index seq target low high key) default))) := by
  induction low, high, key using first_ge_index.induct seq target with
  | case1 low high key h mid hlt ih =>
    intro _
    rw [first_ge_index, dif_pos h, if_pos hlt]
    have hmiddef : mid = (low + high) / 2 := rfl
    simp only [← hmiddef]
    have hmid : low ≤ mid ∧ mid < high := by
      constructor <;> omega
    have hs' : ∀ j, j < high → ∀ i, i ≤ j → mid + 1 ≤ i →
        key (seq.getD i default) ≤ key (seq.getD j default) := by
      intro j hj i hij hi
      exact hsorted j hj i hij (by omega)
    obtain ⟨h1, h2, h3, h4⟩ := ih hs' (by omega)
    refine ⟨by omega, h2, ?_, h4⟩
    intro j hj hjlt
    rcases Nat.lt_or_ge j (mid + 1) with hcase | hcase
    · calc key (seq.getD j default) ≤ key (seq.getD mid default) :=
            hsorted mid hmid.2 j (by omega) hj
        _ < target := hlt
    · exact h3 j hcase hjlt
  | case2 low high key h mid hge ih =>
    intro _
    rw [first_ge_index, dif_pos h, if_neg hge]
    have hmiddef : mid = (low + high) / 2 := rfl
    simp only [← hmiddef]
    have hmid : low ≤ mid ∧ mid < high := by
      constructor <;> omega
    have hs' : ∀ j, j < mid → ∀ i, i ≤ j → low ≤ i →
        key (seq.getD i default) ≤ key (seq.getD j default) := by
      intro j hj i hij hi
      exact hsorted j (by omega) i hij hi
    obtain ⟨h1, h2, h3, h4⟩ := ih hs' (by omega)
    refine ⟨h1, by omega, h3, ?_⟩
    intro _
    rcases Nat.lt_or_ge (first_ge_index seq target low mid key) mid with hc | hc
    · exact h4 hc
    · have heq : first_ge_index seq target low mid key = mid := by omega
      rw [heq]
      exact le_of_not_lt hge
  | case3 low high key h =>
    intro hle
    rw [first_ge_index, dif_neg h]
    have : low = high := by omega
    refine ⟨le_refl _, by omega, ?_, by omega⟩
    intro j hj hjlt
    omega

/-- C1: Lower-bound search correctness.  For every list, key-extraction
function, target, and index range `[low, high)` with `low ≤ high ≤ length`,
if the sub-range is sorted non-decreasingly by the extracted key, then
`_first_ge_index` returns the smallest index `i` in `[low, high)` whose key
is `≥ target` (`high` if no such index exists): the result is in
`[low, high]`, every element before it in the range has key `< target`, the
element at the result (when the result is `< high`) has key `≥ target`, the
result is `≤` any qualifying index (leftmost for duplicates), all elements
below target forces the result `high`, and an empty range returns `low`. -/
theorem first_ge_index_is_lower_bound {α β : Type} [Inhabited α] [LinearOrder β]
    (seq : List α) (key : α → β) (target : β) (low high : ℕ)
    (hlh : low ≤ high) (hhigh : high ≤ seq.length)
    (hsorted : ∀ j, j < high → ∀ i, i ≤ j → low ≤ i →
      key (seq.getD i default) ≤ key (seq.getD j default)) :
    low ≤ first_ge_index seq target low high key ∧
    first_ge_index seq target low high key ≤ high ∧
    (∀ j, low ≤ j → j < first_ge_index seq target low high key →
      key (seq.getD j default) < target) ∧
    (first_ge_index seq target low high key < high →
      target ≤ key (seq.getD (first_ge_index seq target low high key) default)) ∧
    (∀ j, low ≤ j → j < high → target ≤ key (seq.getD j default) →
      first_ge_index seq target low high key ≤ j) ∧
    ((∀ j, low ≤ j → j < high → key (seq.getD j default) < target) →
      first_ge_index seq target low high key = high) ∧
    (low = high → first_ge_index seq target low high key = low) := by
  obtain ⟨h1, h2, h3, h4⟩ := first_ge_index_correct seq target low high key hsorted hlh
  refine ⟨h1, h2, h3, h4, ?_, ?_, ?_⟩
  · intro j hlj hjh htj
    by_contra hcon
    exact absurd htj (not_le.mpr (h3 j hlj (by omega)))
  · intro hall
    by_contra hcon
    have hlt : first_ge_index seq target low high key < high := by omega
    exact absurd (h4 hlt) (not_le.mpr (hall _ h1 hlt))
  · intro heq
    omega

/-- Witness for C1 on the spec's own example `S = [1,2,4,5,6]`, target `3`,
range `[0, 5)`: the returned index is `2`. -/
theorem first_ge_index_is_lower_bound_witness :
    ((0:ℕ) ≤ 5 ∧ 5 ≤ ([1, 2, 4, 5, 6] : List ℕ).length ∧
      (∀ j, j < 5 → ∀ i, i ≤ j → 0 ≤ i →
        (fun x : ℕ => x) (([1, 2, 4, 5, 6] : List ℕ).getD i default) ≤
          (fun x : ℕ => x) (([1, 2, 4, 5, 6] : List ℕ).getD j default))) ∧
    (0 ≤ first_ge_index ([1, 2, 4, 5, 6] : List ℕ) 3 0 5 (fun x => x) ∧
      first_ge_index ([1, 2, 4, 5, 6] : List ℕ) 3 0 5 (fun x => x) ≤ 5) ∧
    first_ge_index ([1, 2, 4, 5, 6] : List ℕ) 3 0 5 (fun x => x) = 2 := by
  have h := first_ge_index_is_lower_bound ([1, 2, 4, 5, 6] : List ℕ)
    (fun x => x) 3 0 5 (by decide) (by decide) (by decide)
  exact ⟨⟨by decide, by decide, by decide⟩, ⟨h.1, h.2.1⟩, by simp [first_ge_index]⟩

/-- C10: Termination of the binary search.  `_first_ge_index` is embedded as
a total function (its recursion is justified by the strictly decreasing
measure `high - low`), and for `low ≤ high ≤ length` its result lies in the
closed interval `[low, high]`. -/
theorem first_ge_index_terminates_in_range {α β : Type} [Inhabited α] [LinearOrder β]
    (seq : List α) (key : α → β) (target : β) (low high : ℕ)
    (hlh : low ≤ high) (hhigh : high ≤ seq.length) :
    low ≤ first_ge_index seq target low high key ∧
    first_ge_index seq target low high key ≤ high := by
  clear hhigh
  revert hlh
  induction low, high, key using first_ge_index.induct seq target with
  | case1 low high key h mid hlt ih =>
    intro _
    rw [first_ge_index, dif_pos h, if_pos hlt]
    have hmiddef : mid = (low + high) / 2 := rfl
    simp only [← hmiddef]
    have := ih (by omega)
    omega
  | case2 low high key h mid hge ih =>
    intro _
    rw [first_ge_index, dif_pos h, if_neg hge]
    have hmiddef : mid = (low + high) / 2 := rfl
    simp only [← hmiddef]
    have := ih (by omega)
    omega
  | case3 low high key h =>
    intro _
    rw [first_ge_index, dif_neg h]
    omega

/-- Witness for C10 at a concrete input: on `[10, 20, 30]`, target `25`,
range `[0, 3)`, the result lies in `[0, 3]`. -/
theorem first_ge_index_terminates_in_range_witness :
    ((0:ℕ) ≤ 3 ∧ 3 ≤ ([10, 20, 30] : List ℕ).length) ∧
    0 ≤ first_ge_index ([10, 20, 30] : List ℕ) 25 0 3 (fun x => x) ∧
    first_ge_index ([10, 20, 30] : List ℕ) 25 0 3 (fun x => x) ≤ 3 :=
  ⟨⟨by decide, by decide⟩,
    first_ge_index_terminates_in_range ([10, 20, 30] : List ℕ)
      (fun x => x) 25 0 3 (by decide) (by decide)⟩

/-- For a list whose ids are strictly increasing, the bounded-quantifier
sortedness hypothesis of `first_ge_index_correct` holds for the id key. -/
theorem sorted_key_of_pairwise {α β : Type} [Inhabited α] [Preorder β]
    (l : List α) (key : α → β) (h : List.Pairwise (fun a b => key a ≤ key b) l) :
    ∀ j, j < l.length → ∀ i, i ≤ j → 0 ≤ i →
      key (l.getD i default) ≤ key (l.getD j default) := by
  intro j hj i hij _
  rw [List.getD_eq_getElem l default (by omega), List.getD_eq_getElem l default hj]
  rcases Nat.lt_or_ge i j with hc | hc
  · exact List.pairwise_iff_getElem.mp h i j (by omega) hj hc
  · have : i = j := by omega
    subst this
    exact le_refl _

/-- C3: Find-by-id correctness.  For every list of expenses sorted strictly
increasingly by id, `find_by_id` returns `some i` exactly when the element at
index `i` has the target id; it returns `none` on the empty list, and `none`
whenever no element carries the target id (e.g. an id never assigned). -/
theorem find_by_id_correct (expenses : List Expense) (id_ : ℤ)
    (hsorted : List.Pairwise (fun a b => a.id < b.id) expenses) :
    (∀ i, find_by_id expenses id_ = some i ↔
      i < expenses.length ∧ (expenses.getD i default).id = id_) ∧
    (expenses = [] → find_by_id expenses id_ = none) ∧
    ((∀ e ∈ expenses, e.id ≠ id_) → find_by_id expenses id_ = none) := by
  have hmono : List.Pairwise (fun a b : Expense => a.id ≤ b.id) expenses :=
    hsorted.imp (fun h => le_of_lt h)
  have hs := sorted_key_of_pairwise expenses (fun x => x.id) hmono
  obtain ⟨h1, h2, h3, h4⟩ :=
    first_ge_index_correct expenses id_ 0 expenses.length (fun x => x.id) hs
      (Nat.zero_le _)
  set idx := first_ge_index expenses id_ 0 expenses.length (fun x => x.id) with hidx
  have hiff : ∀ i, find_by_id expenses id_ = some i ↔
      i < expenses.length ∧ (expenses.getD i default).id = id_ := by
    intro i
    constructor
    · intro hfind
      rw [find_by_id] at hfind
      simp only [← hidx] at hfind
      by_cases hcond : idx = expenses.length ∨ (expenses.getD idx default).id ≠ id_
      · rw [if_pos hcond] at hfind
        exact absurd hfind (by simp)
      · rw [if_neg hcond] at hfind
        push_neg at hcond
        obtain ⟨hne, heq⟩ := hcond
        have : idx = i := by injection hfind
        subst this
        exact ⟨by omega, heq⟩
    · rintro ⟨hilen, hieq⟩
      have hidx_le : idx ≤ i := by
        by_contra hcon
        have := h3 i (Nat.zero_le _) (by omega)
        simp only [hieq] at this
        exact absurd this (lt_irrefl _)
      have hidxlen : idx < expenses.length := by omega
      have hge : id_ ≤ (expenses.getD idx default).id := h4 hidxlen
      have hidx_eq : idx = i := by
        by_contra hcon
        have hlt : idx < i := by omega
        have : (expenses.getD idx default).id < (expenses.getD i default).id := by
          rw [List.getD_eq_getElem expenses default hidxlen,
            List.getD_eq_getElem expenses default hilen]
          exact List.pairwise_iff_getElem.mp hsorted idx i hidxlen hilen hlt
        rw [hieq] at this
        exact absurd hge (not_le.mpr this)
      rw [find_by_id]
      simp only [← hidx]
      rw [if_neg]
      · rw [hidx_eq]
      · push_neg
        rw [hidx_eq, hieq]
        exact ⟨by omega, rfl⟩
  refine ⟨hiff, ?_, ?_⟩
  · intro hempty
    subst hempty
    simp [find_by_id, first_ge_index]
  · intro hnone
    cases hfind : find_by_id expenses id_ with
    | none => rfl
    | some i =>
      obtain ⟨hilen, hieq⟩ := (hiff i).mp hfind
      have hmem : expenses.getD i default ∈ expenses := by
        rw [List.getD_eq_getElem expenses default hilen]
        exact List.getElem_mem _
      exact absurd hieq (hnone _ hmem)

/-- Witness for C3 on a concrete two-element ledger with ids `1` and `2`:
id `2` is found at index `1`, and the never-assigned ids `0` and `3`
(`max + 1`) are not found. -/
theorem find_by_id_correct_witness :
    List.Pairwise (fun a b : Expense => a.id < b.id)
      [⟨1, "Lunch", ⟨"15.0"⟩, "Food", ⟨2024, 7, 1⟩⟩,
       ⟨2, "Book", ⟨"20.0"⟩, "Education", ⟨2024, 7, 2⟩⟩] ∧
    (find_by_id
      [⟨1, "Lunch", ⟨"15.0"⟩, "Food", ⟨2024, 7, 1⟩⟩,
       ⟨2, "Book", ⟨"20.0"⟩, "Education", ⟨2024, 7, 2⟩⟩] 2 = some 1 ↔
      1 < ([⟨1, "Lunch", ⟨"15.0"⟩, "Food", ⟨2024, 7, 1⟩⟩,
       ⟨2, "Book", ⟨"20.0"⟩, "Education", ⟨2024, 7, 2⟩⟩] : List Expense).length ∧
      (([⟨1, "Lunch", ⟨"15.0"⟩, "Food", ⟨2024, 7, 1⟩⟩,
       ⟨2, "Book", ⟨"20.0"⟩, "Education", ⟨2024, 7, 2⟩⟩] : List Expense).getD 1
         default).id = 2) := by
  constructor
  · decide
  · exact (find_by_id_correct
      [⟨1, "Lunch", ⟨"15.0"⟩, "Food", ⟨2024, 7, 1⟩⟩,
       ⟨2, "Book", ⟨"20.0"⟩, "Education", ⟨2024, 7, 2⟩⟩] 2 (by decide)).1 1

/-- Elements of the slice of a key-sorted list between the lower bound for
`a` (searched on `[0, length)`) and the lower bound for `b` (searched from
the first result, exactly as `filter_by_date` does) are exactly the elements
with key in `[a, b)`. -/
theorem slice_between_lower_bounds {α β : Type} [Inhabited α] [LinearOrder β]
    (l : List α) (key : α → β) (a b : β) (hab : a ≤ b)
    (hsorted : List.Pairwise (fun x y => key x ≤ key y) l) :
    ((l.take (first_ge_index l b (first_ge_index l a 0 l.length key) l.length key)).drop
        (first_ge_index l a 0 l.length key)) =
      l.filter (fun x => decide (a ≤ key x ∧ key x < b)) := by
  have hs := sorted_key_of_pairwise l key hsorted
  obtain ⟨hs1, hs2, hs3, hs4⟩ :=
    first_ge_index_correct l a 0 l.length key hs (Nat.zero_le _)
  set s := first_ge_index l a 0 l.length key with hsdef
  have hs' : ∀ j, j < l.length → ∀ i, i ≤ j → s ≤ i →
      key (l.getD i default) ≤ key (l.getD j default) := by
    intro j hj i hij _
    exact hs j hj i hij (Nat.zero_le _)
  obtain ⟨ht1, ht2, ht3, ht4⟩ :=
    first_ge_index_correct l b s l.length key hs' hs2
  set t := first_ge_index l b s l.length key with htdef
  have hst : s ≤ t := ht1
  have hkey_lt_a : ∀ i, i < s → key (l.getD i default) < a := fun i hi =>
    hs3 i (Nat.zero_le _) hi
  have hkey_in : ∀ i, s ≤ i → i < t → a ≤ key (l.getD i default) ∧
      key (l.getD i default) < b := by
    intro i hsi hit
    have hilen : i < l.length := by omega
    have hslen : s < l.length := by omega
    refine ⟨le_trans (hs4 hslen) ?_, ht3 i hsi hit⟩
    exact hs i hilen s hsi (Nat.zero_le _)
  have hkey_ge_b : ∀ i, t ≤ i → i < l.length → b ≤ key (l.getD i default) := by
    intro i hti hilen
    have htlen : t < l.length := by omega
    exact le_trans (ht4 htlen) (hs i hilen t hti (Nat.zero_le _))
  -- Decompose `l` into the three regions and evaluate the filter on each.
  have hmid : l.take t = l.take s ++ (l.take t).drop s := by
    conv_lhs => rw [← List.take_append_drop s (l.take t)]
    rw [List.take_take, min_eq_left hst]
  have hdecomp : l = l.take s ++ (l.take t).drop s ++ l.drop t :=
    calc l = l.take t ++ l.drop t := (List.take_append_drop t l).symm
      _ = l.take s ++ (l.take t).drop s ++ l.drop t := by rw [← hmid]
  set p : α → Bool := fun x => decide (a ≤ key x ∧ key x < b) with hpdef
  have hfilter_pre : (l.take s).filter p = [] := by
    rw [List.filter_eq_nil_iff]
    intro x hx
    obtain ⟨i, hi, hxeq⟩ := List.mem_take_iff_getElem.mp hx
    have hilen : i < l.length := by omega
    have := hkey_lt_a i (by omega)
    rw [List.getD_eq_getElem l default hilen, hxeq] at this
    simp only [hpdef, decide_eq_true_eq, not_and, not_lt]
    intro hax
    exact absurd (lt_of_le_of_lt hax this) (lt_irrefl _)
  have hfilter_mid : ((l.take t).drop s).filter p = (l.take t).drop s := by
    rw [List.filter_eq_self]
    intro x hx
    obtain ⟨i, hi, hxeq⟩ := List.mem_drop_iff_getElem.mp hx
    have hlen_take : (l.take t).length = t ⊓ l.length := List.length_take t l
    have hit : s + i < t ∧ s + i < l.length := by
      constructor <;> omega
    have hgd : l.getD (s + i) default = x := by
      rw [List.getD_eq_getElem l default hit.2, ← hxeq]
      exact (List.getElem_take l).symm
    have hin := hkey_in (s + i) (by omega) hit.1
    rw [hgd] at hin
    simp only [hpdef, decide_eq_true_eq]
    exact hin
  have hfilter_post : (l.drop t).filter p = [] := by
    rw [List.filter_eq_nil_iff]
    intro x hx
    obtain ⟨i, hi, hxeq⟩ := List.mem_drop_iff_getElem.mp hx
    have hilen : t + i < l.length := by omega
    have := hkey_ge_b (t + i) (by omega) hilen
    rw [List.getD_eq_getElem l default hilen, hxeq] at this
    simp only [hpdef, decide_eq_true_eq, not_and, not_lt]
    intro _
    exact this
  conv_rhs => rw [hdecomp]
  rw [List.filter_append, List.filter_append, hfilter_pre, hfilter_mid,
    hfilter_post, List.nil_append, List.append_nil]

/-- C2: Filter-by-date correctness and exclusivity.  On a ledger sorted
non-decreasingly by `(year, month)` of `create_at`, filtering by month
`m ∈ [1, 12]` of year `y` returns exactly the sub-list of expenses created
in that month, in original order and without error; no record of January of
`y + 1` is included (December exclusivity); and filtering with the month
omitted returns exactly the expenses of year `y` (months are `≥ 1` because
Python dates always have `1 ≤ month ≤ 12`). -/
theorem filter_by_date_correct (expenses : List Expense) (m y todayYear : ℕ)
    (hm1 : 1 ≤ m) (hm12 : m ≤ 12)
    (hsorted : List.Pairwise (fun a b => year_and_month a ≤ year_and_month b) expenses)
    (hvalid : ∀ e ∈ expenses, 1 ≤ e.create_at.month) :
    filter_by_date expenses (some m) (some y) todayYear =
      .ok (expenses.filter (fun e =>
        decide (e.create_at.year = y ∧ e.create_at.month = m))) ∧
    (∀ e ∈ expenses.filter (fun e =>
        decide (e.create_at.year = y ∧ e.create_at.month = m)),
      ¬(e.create_at.year = y + 1 ∧ e.create_at.month = 1)) ∧
    filter_by_date expenses none (some y) todayYear =
      .ok (expenses.filter (fun e => decide (e.create_at.year = y))) := by
  refine ⟨?_, ?_, ?_⟩
  · rw [filter_by_date]
    simp only [Option.getD_some]
    have hslice := slice_between_lower_bounds expenses year_and_month
      (toLex (y, m)) (toLex (y, m + 1))
      (by rw [Prod.Lex.le_iff]; right; exact ⟨rfl, by omega⟩) hsorted
    rw [hslice]
    congr 1
    apply List.filter_congr
    intro e _
    rw [decide_eq_decide]
    unfold year_and_month
    rw [Prod.Lex.le_iff, Prod.Lex.lt_iff]
    dsimp only
    omega
  · intro e he
    rw [List.mem_filter, decide_eq_true_eq] at he
    rintro ⟨hy, _⟩
    omega
  · rw [filter_by_date]
    have hslice := slice_between_lower_bounds expenses year_and_month
      (toLex (y, 1)) (toLex (y + 1, 1))
      (by rw [Prod.Lex.le_iff]; left; omega) hsorted
    rw [hslice]
    congr 1
    apply List.filter_congr
    intro e he
    have hmo := hvalid e he
    rw [decide_eq_decide]
    unfold year_and_month
    rw [Prod.Lex.le_iff, Prod.Lex.lt_iff]
    dsimp only
    omega

/-- Witness for C2 on a concrete four-record ledger spanning December 2024,
May 2025 (twice) and January 2026, sorted by `(year, month)`. -/
theorem filter_by_date_correct_witness :
    (1 ≤ 5 ∧ 5 ≤ 12 ∧
      List.Pairwise (fun a b => year_and_month a ≤ year_and_month b)
        ([⟨1, "Gift", ⟨"25.0"⟩, "Misc", ⟨2024, 12, 31⟩⟩,
          ⟨2, "Book", ⟨"18.0"⟩, "Education", ⟨2025, 5, 5⟩⟩,
          ⟨3, "Flowers", ⟨"20.0"⟩, "Gift", ⟨2025, 5, 6⟩⟩,
          ⟨4, "Lunch", ⟨"15.0"⟩, "Food", ⟨2026, 1, 2⟩⟩] : List Expense) ∧
      (∀ e ∈ ([⟨1, "Gift", ⟨"25.0"⟩, "Misc", ⟨2024, 12, 31⟩⟩,
          ⟨2, "Book", ⟨"18.0"⟩, "Education", ⟨2025, 5, 5⟩⟩,
          ⟨3, "Flowers", ⟨"20.0"⟩, "Gift", ⟨2025, 5, 6⟩⟩,
          ⟨4, "Lunch", ⟨"15.0"⟩, "Food", ⟨2026, 1, 2⟩⟩] : List Expense),
        1 ≤ e.create_at.month)) ∧
    filter_by_date
      ([⟨1, "Gift", ⟨"25.0"⟩, "Misc", ⟨2024, 12, 31⟩⟩,
        ⟨2, "Book", ⟨"18.0"⟩, "Education", ⟨2025, 5, 5⟩⟩,
        ⟨3, "Flowers", ⟨"20.0"⟩, "Gift", ⟨2025, 5, 6⟩⟩,
        ⟨4, "Lunch", ⟨"15.0"⟩, "Food", ⟨2026, 1, 2⟩⟩] : List Expense)
      (some 5) (some 2025) 2025 =
      .ok (([⟨1, "Gift", ⟨"25.0"⟩, "Misc", ⟨2024, 12, 31⟩⟩,
        ⟨2, "Book", ⟨"18.0"⟩, "Education", ⟨2025, 5, 5⟩⟩,
        ⟨3, "Flowers", ⟨"20.0"⟩, "Gift", ⟨2025, 5, 6⟩⟩,
        ⟨4, "Lunch", ⟨"15.0"⟩, "Food", ⟨2026, 1, 2⟩⟩] : List Expense).filter
          (fun e => decide (e.create_at.year = 2025 ∧ e.create_at.month = 5))) := by
  refine ⟨⟨by omega, by omega, by decide, by decide⟩, ?_⟩
  exact (filter_by_date_correct _ 5 2025 2025 (by omega) (by omega)
    (by decide) (by decide)).1

/-- Counterexample for C6: ids are reused after deletion.  Starting from the
empty ledger, two `add` operations assign ids `1` and `2`; deleting the
record with id `2` and adding again assigns id `2` a second time, so an id
is reused after the record holding it is deleted. -/
theorem handle_add_reuses_deleted_id :
    handle_add [] "Lunch" ⟨"15.0"⟩ "Food" ⟨2025, 7, 1⟩ =
      [⟨1, "Lunch", ⟨"15.0"⟩, "Food", ⟨2025, 7, 1⟩⟩] ∧
    handle_add [⟨1, "Lunch", ⟨"15.0"⟩, "Food", ⟨2025, 7, 1⟩⟩]
        "Book" ⟨"20.0"⟩ "Education" ⟨2025, 7, 1⟩ =
      [⟨1, "Lunch", ⟨"15.0"⟩, "Food", ⟨2025, 7, 1⟩⟩,
       ⟨2, "Book", ⟨"20.0"⟩, "Education", ⟨2025, 7, 1⟩⟩] ∧
    handle_delete
      [⟨1, "Lunch", ⟨"15.0"⟩, "Food", ⟨2025, 7, 1⟩⟩,
       ⟨2, "Book", ⟨"20.0"⟩, "Education", ⟨2025, 7, 1⟩⟩] 2 =
      [⟨1, "Lunch", ⟨"15.0"⟩, "Food", ⟨2025, 7, 1⟩⟩] ∧
    new_expense_id [⟨1, "Lunch", ⟨"15.0"⟩, "Food", ⟨2025, 7, 1⟩⟩] = 2 := by
  refine ⟨rfl, rfl, ?_, rfl⟩
  rw [handle_delete]
  have hfind : find_by_id
      [⟨1, "Lunch", ⟨"15.0"⟩, "Food", ⟨2025, 7, 1⟩⟩,
       ⟨2, "Book", ⟨"20.0"⟩, "Education", ⟨2025, 7, 1⟩⟩] 2 = some 1 := by
    rw [find_by_id]
    rw [first_ge_index]
    norm_num
    rw [first_ge_index]
    norm_num
    rw [first_ge_index]
    norm_num
  rw [hfind]
  rfl

/-- C6 as amended: `handle_add` assigns `last id + 1` (`1` on the empty
ledger); on a ledger sorted increasingly by id with positive ids — the
invariant the application maintains — this equals `max(existing ids) + 1`,
and the assigned id is positive and distinct from every existing id.  Ids
*can* be reused after the highest-id record is deleted
(`handle_add_reuses_deleted_id`). -/
theorem handle_add_id_assignment (expenses : List Expense)
    (hsorted : List.Pairwise (fun a b => a.id < b.id) expenses)
    (hpos : ∀ e ∈ expenses, 1 ≤ e.id) :
    (expenses = [] → new_expense_id expenses = 1) ∧
    (expenses ≠ [] → ∃ mx, mx ∈ expenses.map (fun e => e.id) ∧
      (∀ e ∈ expenses, e.id ≤ mx) ∧ new_expense_id expenses = mx + 1) ∧
    1 ≤ new_expense_id expenses ∧
    (∀ e ∈ expenses, e.id ≠ new_expense_id expenses) ∧
    (∀ d a c t, (handle_add expenses d a c t).map (fun e => e.id) =
      expenses.map (fun e => e.id) ++ [new_expense_id expenses]) := by
  have hmax : expenses ≠ [] → ∃ last, expenses.getLast? = some last ∧
      last ∈ expenses ∧ ∀ e ∈ expenses, e.id ≤ last.id := by
    intro hne
    have hlen : 0 < expenses.length := List.length_pos.mpr hne
    have hlt : expenses.length - 1 < expenses.length := by omega
    have hlast : expenses.getLast? = some expenses[expenses.length - 1] := by
      rw [List.getLast?_eq_getElem?, List.getElem?_eq_getElem hlt]
    refine ⟨_, hlast, List.getElem_mem _, ?_⟩
    intro e he
    obtain ⟨i, hi, hieq⟩ := List.mem_iff_getElem.mp he
    rcases Nat.lt_or_ge i (expenses.length - 1) with hc | hc
    · have := List.pairwise_iff_getElem.mp hsorted i (expenses.length - 1)
        (by omega) (by omega) hc
      rw [hieq] at this
      exact le_of_lt this
    · have : i = expenses.length - 1 := by omega
      subst this
      rw [hieq]
  constructor
  · intro hempty
    subst hempty
    rfl
  refine ⟨?_, ?_, ?_, ?_⟩
  · intro hne
    obtain ⟨last, hlast, hmem, hle⟩ := hmax hne
    refine ⟨last.id, List.mem_map.mpr ⟨last, hmem, rfl⟩, hle, ?_⟩
    rw [new_expense_id, hlast]
  · cases hexp : expenses with
    | nil => simp [new_expense_id]
    | cons e₀ rest =>
      obtain ⟨last, hlast, hmem, _⟩ := hmax (by rw [hexp]; exact List.cons_ne_nil e₀ rest)
      rw [← hexp] at *
      have h1 := hpos last hmem
      have hnid : new_expense_id expenses = last.id + 1 := by
        rw [new_expense_id, hlast]
      omega
  · intro e he
    cases hexp : expenses with
    | nil =>
      rw [hexp] at he
      exact absurd he (List.not_mem_nil e)
    | cons e₀ rest =>
      obtain ⟨last, hlast, hmem, hle⟩ := hmax (by rw [hexp]; exact List.cons_ne_nil e₀ rest)
      rw [← hexp] at *
      have h1 := hle e he
      have hnid : new_expense_id expenses = last.id + 1 := by
        rw [new_expense_id, hlast]
      omega
  · intro d a c t
    rw [handle_add, List.map_append]
    rfl

/-- Witness for C6 (amended) on a concrete sorted two-record ledger with
ids `1` and `3`: the next assigned id is `4 = max + 1`. -/
theorem handle_add_id_assignment_witness :
    (List.Pairwise (fun a b => a.id < b.id)
      ([⟨1, "Lunch", ⟨"15.0"⟩, "Food", ⟨2025, 7, 1⟩⟩,
        ⟨3, "Book", ⟨"20.0"⟩, "Education", ⟨2025, 7, 2⟩⟩] : List Expense) ∧
      (∀ e ∈ ([⟨1, "Lunch", ⟨"15.0"⟩, "Food", ⟨2025, 7, 1⟩⟩,
        ⟨3, "Book", ⟨"20.0"⟩, "Education", ⟨2025, 7, 2⟩⟩] : List Expense),
        1 ≤ e.id)) ∧
    (([⟨1, "Lunch", ⟨"15.0"⟩, "Food", ⟨2025, 7, 1⟩⟩,
        ⟨3, "Book", ⟨"20.0"⟩, "Education", ⟨2025, 7, 2⟩⟩] : List Expense) ≠ [] →
      ∃ mx, mx ∈ ([⟨1, "Lunch", ⟨"15.0"⟩, "Food", ⟨2025, 7, 1⟩⟩,
        ⟨3, "Book", ⟨"20.0"⟩, "Education", ⟨2025, 7, 2⟩⟩] : List Expense).map (fun e => e.id) ∧
        (∀ e ∈ ([⟨1, "Lunch", ⟨"15.0"⟩, "Food", ⟨2025, 7, 1⟩⟩,
          ⟨3, "Book", ⟨"20.0"⟩, "Education", ⟨2025, 7, 2⟩⟩] : List Expense), e.id ≤ mx) ∧
        new_expense_id [⟨1, "Lunch", ⟨"15.0"⟩, "Food", ⟨2025, 7, 1⟩⟩,
          ⟨3, "Book", ⟨"20.0"⟩, "Education", ⟨2025, 7, 2⟩⟩] = mx + 1) := by
  have h := handle_add_id_assignment
    [⟨1, "Lunch", ⟨"15.0"⟩, "Food", ⟨2025, 7, 1⟩⟩,
     ⟨3, "Book", ⟨"20.0"⟩, "Education", ⟨2025, 7, 2⟩⟩] (by decide) (by decide)
  exact ⟨⟨by decide, by decide⟩, h.2.1⟩

theorem scanQuoted_quote_quote (rest : List Char) :
    scanQuoted ('"' :: '"' :: rest) =
      ('"' :: (scanQuoted rest).1, (scanQuoted rest).2) := by
  conv_lhs => rw [scanQuoted.eq_def]
  dsimp only
  simp

theorem scanQuoted_quote_close (c2 : Char) (rest : List Char) (h : c2 ≠ '"') :
    scanQuoted ('"' :: c2 :: rest) = ([], c2 :: rest) := by
  conv_lhs => rw [scanQuoted.eq_def]
  dsimp only
  simp [h]

theorem scanQuoted_other (c : Char) (rest : List Char) (hc : c ≠ '"') :
    scanQuoted (c :: rest) = (c :: (scanQuoted rest).1, (scanQuoted rest).2) := by
  conv_lhs => rw [scanQuoted.eq_def]
  dsimp only
  rw [if_neg hc]

theorem scanBare_stop (c : Char) (rest : List Char)
    (h : c = ',' ∨ c = '\r' ∨ c = '\n') :
    scanBare (c :: rest) = ([], c :: rest) := by
  conv_lhs => rw [scanBare.eq_def]
  dsimp only
  rw [if_pos h]

theorem scanBare_cont (c : Char) (rest : List Char)
    (h : ¬(c = ',' ∨ c = '\r' ∨ c = '\n')) :
    scanBare (c :: rest) = (c :: (scanBare rest).1, (scanBare rest).2) := by
  conv_lhs => rw [scanBare.eq_def]
  dsimp only
  rw [if_neg h]

theorem parseField_quote (rest : List Char) :
    parseField ('"' :: rest) =
      (Cell.str ⟨(scanQuoted rest).1⟩, (scanQuoted rest).2) := by
  conv_lhs => rw [parseField.eq_def]
  dsimp only
  simp

theorem parseField_bare (c : Char) (rest : List Char) (hc : c ≠ '"') :
    parseField (c :: rest) =
      (Cell.num ⟨(scanBare (c :: rest)).1⟩, (scanBare (c :: rest)).2) := by
  conv_lhs => rw [parseField.eq_def]
  dsimp only
  rw [if_neg hc]

theorem scanQuoted_escape (u : List Char) :
    ∀ r : List Char, r.head? ≠ some '"' →
      scanQuoted (escapeQuotes u ++ '"' :: r) = (u, r) := by
  induction u with
  | nil =>
    intro r hr
    rw [escapeQuotes, List.nil_append]
    cases r with
    | nil => rfl
    | cons c2 r2 =>
      have hc2 : c2 ≠ '"' := fun h => hr (by rw [h]; rfl)
      exact scanQuoted_quote_close c2 r2 hc2
  | cons c u ih =>
    intro r hr
    rw [escapeQuotes]
    by_cases hc : c = '"'
    · subst hc
      rw [if_pos rfl]
      simp only [List.cons_append]
      rw [scanQuoted_quote_quote, ih r hr]
    · rw [if_neg hc]
      simp only [List.cons_append]
      rw [scanQuoted_other c _ hc, ih r hr]

theorem scanBare_token (tok : List Char)
    (htok : ∀ c ∈ tok, c ≠ ',' ∧ c ≠ '\r' ∧ c ≠ '\n') :
    ∀ r : List Char, DelimStart r → scanBare (tok ++ r) = (tok, r) := by
  induction tok with
  | nil =>
    intro r hr
    rw [List.nil_append]
    cases r with
    | nil => rfl
    | cons c rest =>
      rcases hr with h | h | h | h
      · exact absurd h (by simp)
      all_goals
        simp only [List.head?_cons, Option.some.injEq] at h
        exact scanBare_stop c rest (by tauto)
  | cons c tok ih =>
    intro r hr
    have hc := htok c (List.mem_cons_self c tok)
    rw [List.cons_append, scanBare_cont c _ (by tauto),
      ih (fun c hm => htok c (List.mem_cons_of_mem _ hm)) r hr]

theorem parseField_encode (c : Cell) (r : List Char) (hok : CellOK c)
    (hr : DelimStart r) :
    parseField (encodeCell c ++ r) = (c, r) := by
  have hrq : r.head? ≠ some '"' := by
    rcases hr with h | h | h | h <;> rw [h] <;> simp
  cases c with
  | str s =>
    rw [encodeCell]
    simp only [List.cons_append, List.append_assoc, List.singleton_append,
      List.nil_append]
    rw [parseField_quote, scanQuoted_escape s.data r hrq]
  | num tok =>
    obtain ⟨hne, hhead, hchars⟩ := hok
    obtain ⟨c0, rest0, hdata⟩ : ∃ c0 r0, tok.data = c0 :: r0 := by
      cases h : tok.data with
      | nil => exact absurd h hne
      | cons a b => exact ⟨a, b, rfl⟩
    have hc0 : c0 ≠ '"' := by
      rw [hdata] at hhead
      simpa using hhead
    rw [encodeCell, hdata, List.cons_append, parseField_bare c0 _ hc0,
      ← List.cons_append, ← hdata,
      scanBare_token tok.data hchars r hr]

theorem parseRowAux_encode :
    ∀ (cells : List Cell) (fuel : ℕ) (r : List Char),
      cells ≠ [] → (∀ c ∈ cells, CellOK c) → cells.length ≤ fuel →
      parseRowAux fuel (encodeRow cells ++ r) = (cells, r) := by
  intro cells
  induction cells with
  | nil => intro fuel r hne _ _; exact absurd rfl hne
  | cons c cells ih =>
    intro fuel r _ hok hfuel
    cases fuel with
    | zero => simp at hfuel
    | succ f =>
      have hokc := hok c (List.mem_cons_self c cells)
      cases cells with
      | nil =>
        rw [encodeRow, encodeCells]
        simp only [List.append_assoc, List.cons_append, List.nil_append]
        rw [parseRowAux]
        rw [parseField_encode c ('\r' :: '\n' :: r) hokc (by right; right; left; rfl)]
        simp
      | cons c2 rest =>
        have hpf := parseField_encode c
          (',' :: (encodeCells (c2 :: rest) ++ '\r' :: '\n' :: r)) hokc
          (by right; left; rfl)
        have hrec := ih f r (by simp) (fun x hm => hok x (List.mem_cons_of_mem _ hm))
          (by simp at hfuel ⊢; omega)
        rw [encodeRow] at hrec
        simp only [List.append_assoc, List.cons_append, List.nil_append] at hrec
        rw [encodeRow,
          show encodeCells (c :: c2 :: rest) =
            encodeCell c ++ ',' :: encodeCells (c2 :: rest) from rfl]
        simp only [List.append_assoc, List.cons_append, List.nil_append]
        rw [parseRowAux]
        rw [hpf]
        simp [hrec]

theorem encodeRow_length_ge (cells : List Cell) :
    cells.length + 1 ≤ (encodeRow cells).length := by
  have h : ∀ l : List Cell, l.length ≤ (encodeCells l).length + 1 := by
    intro l
    induction l with
    | nil => simp [encodeCells]
    | cons c rest ih =>
      cases rest with
      | nil => simp [encodeCells]
      | cons c2 r2 =>
        rw [show encodeCells (c :: c2 :: r2) =
          encodeCell c ++ ',' :: encodeCells (c2 :: r2) from rfl]
        simp only [List.length_append, List.length_cons] at ih ⊢
        omega
  rw [encodeRow]
  have := h cells
  simp only [List.length_append, List.length_cons, List.length_nil]
  omega

theorem encodeRow_head (cells : List Cell) (hne : cells ≠ [])
    (hok : ∀ c ∈ cells, CellOK c) :
    ∃ ch S, encodeRow cells = ch :: S ∧ ch ≠ '\r' ∧ ch ≠ '\n' := by
  cases cells with
  | nil => exact absurd rfl hne
  | cons c rest =>
    have hokc := hok c (List.mem_cons_self c rest)
    have hhead : ∃ ch T, encodeCell c = ch :: T ∧ ch ≠ '\r' ∧ ch ≠ '\n' := by
      cases c with
      | num tok =>
        obtain ⟨hne', _, hchars⟩ := hokc
        cases h : tok.data with
        | nil => exact absurd h hne'
        | cons a b =>
          have := hchars a (by rw [h]; exact List.mem_cons_self a b)
          exact ⟨a, b, by rw [encodeCell, h], this.2.1, this.2.2⟩
      | str s =>
        exact ⟨'"', _, by rw [encodeCell], by decide, by decide⟩
    obtain ⟨ch, T, henc, h1, h2⟩ := hhead
    cases rest with
    | nil =>
      exact ⟨ch, T ++ ['\r', '\n'], by rw [encodeRow, encodeCells, henc]; simp, h1, h2⟩
    | cons c2 r2 =>
      refine ⟨ch, T ++ ',' :: encodeCells (c2 :: r2) ++ ['\r', '\n'], ?_, h1, h2⟩
      rw [encodeRow,
        show encodeCells (c :: c2 :: r2) =
          encodeCell c ++ ',' :: encodeCells (c2 :: r2) from rfl, henc]
      simp

theorem writeCSV_length_ge (rows : List (List Cell)) :
    rows.length ≤ (writeCSV rows).length := by
  induction rows with
  | nil => simp [writeCSV]
  | cons row rows ih =>
    rw [writeCSV] at ih ⊢
    simp only [List.map_cons, List.flatten_cons, List.length_append, List.length_cons]
    have := encodeRow_length_ge row
    omega

theorem parseCSVAux_write :
    ∀ (rows : List (List Cell)) (fuel : ℕ),
      (∀ row ∈ rows, row ≠ [] ∧ ∀ c ∈ row, CellOK c) → rows.length ≤ fuel →
      parseCSVAux fuel (writeCSV rows) = rows := by
  intro rows
  induction rows with
  | nil =>
    intro fuel _ _
    cases fuel with
    | zero => rfl
    | succ f => rfl
  | cons row rows ih =>
    intro fuel hok hfuel
    cases fuel with
    | zero => simp at hfuel
    | succ f =>
      obtain ⟨hne, hcells⟩ := hok row (List.mem_cons_self row rows)
      obtain ⟨ch, S, hrow, hch1, hch2⟩ := encodeRow_head row hne hcells
      have htext : writeCSV (row :: rows) = ch :: (S ++ writeCSV rows) := by
        rw [writeCSV, List.map_cons, List.flatten_cons, hrow, List.cons_append]
        rw [writeCSV]
      rw [htext]
      conv_lhs => rw [parseCSVAux.eq_def]
      dsimp only
      rw [if_neg hch1, if_neg hch2]
      have hparse : parseRow (ch :: (S ++ writeCSV rows)) = (row, writeCSV rows) := by
        rw [parseRow, ← List.cons_append, ← hrow]
        apply parseRowAux_encode row _ (writeCSV rows) hne hcells
        have h1 := encodeRow_length_ge row
        simp only [List.length_append]
        omega
      simp only [hparse]
      rw [ih f (fun x hm => hok x (List.mem_cons_of_mem _ hm)) (by simp at hfuel ⊢; omega)]

/-- Round trip of the CSV text layer: parsing the text written for a list
of records (each nonempty and well-formed) recovers exactly those records. -/
theorem parseCSV_writeCSV (rows : List (List Cell))
    (hok : ∀ row ∈ rows, row ≠ [] ∧ ∀ c ∈ row, CellOK c) :
    parseCSV (writeCSV rows) = rows := by
  rw [parseCSV]
  apply parseCSVAux_write rows _ hok
  have := writeCSV_length_ge rows
  omega

theorem char48_toNat (n : ℕ) (h : n < 10) : (Char.ofNat (48 + n)).toNat = 48 + n := by
  unfold Char.ofNat
  split
  · rfl
  · omega

theorem isDigitChar_ofNat (n : ℕ) (h : n < 10) :
    isDigitChar (Char.ofNat (48 + n)) = true := by
  rw [isDigitChar, char48_toNat n h]
  simp only [Bool.and_eq_true, decide_eq_true_eq]
  omega

theorem digitVal_ofNat (n : ℕ) (h : n < 10) :
    digitVal (Char.ofNat (48 + n)) = n := by
  rw [digitVal, char48_toNat n h]
  omega

theorem isDigitChar_spec (c : Char) (h : isDigitChar c = true) :
    48 ≤ c.toNat ∧ c.toNat ≤ 57 := by
  rw [isDigitChar] at h
  simp only [Bool.and_eq_true, decide_eq_true_eq] at h
  exact h

theorem digit_ne (c : Char) (h : isDigitChar c = true) :
    c ≠ ',' ∧ c ≠ '\r' ∧ c ≠ '\n' ∧ c ≠ '"' ∧ c ≠ '-' ∧ c ≠ '+' ∧
      c ≠ 'e' ∧ c ≠ 'E' ∧ c ≠ '.' := by
  obtain ⟨h1, h2⟩ := isDigitChar_spec c h
  refine ⟨?_, ?_, ?_, ?_, ?_, ?_, ?_, ?_, ?_⟩ <;>
    · intro heq
      subst heq
      revert h1 h2
      decide

theorem digitsToNat_append_one (l : List Char) (c : Char) :
    digitsToNat (l ++ [c]) = digitsToNat l * 10 + digitVal c := by
  rw [digitsToNat, List.foldl_append]
  rfl

theorem natDigitsAux_spec :
    ∀ (fuel n : ℕ), n ≤ fuel →
      digitsToNat (natDigitsAux fuel n) = n ∧
      (∀ c ∈ natDigitsAux fuel n, isDigitChar c = true) ∧
      natDigitsAux fuel n ≠ [] := by
  intro fuel
  induction fuel with
  | zero =>
    intro n hn
    have h0 : n = 0 := by omega
    subst h0
    refine ⟨by decide, ?_, by simp [natDigitsAux]⟩
    intro c hc
    rw [natDigitsAux] at hc
    simp only [List.mem_singleton] at hc
    subst hc
    exact isDigitChar_ofNat 0 (by omega)
  | succ f ih =>
    intro n hn
    rw [natDigitsAux]
    by_cases hlt : n < 10
    · rw [if_pos hlt]
      refine ⟨?_, ?_, by simp⟩
      · rw [show ([Char.ofNat (48 + n)] : List Char) = [] ++ [Char.ofNat (48 + n)] from rfl,
          digitsToNat_append_one]
        rw [digitVal_ofNat n hlt]
        simp [digitsToNat]
      · intro c hc
        simp only [List.mem_singleton] at hc
        subst hc
        exact isDigitChar_ofNat n hlt
    · rw [if_neg hlt]
      have hrec := ih (n / 10) (by omega)
      obtain ⟨hval, hdig, hne⟩ := hrec
      refine ⟨?_, ?_, by simp⟩
      · rw [digitsToNat_append_one, hval, digitVal_ofNat (n % 10) (by omega)]
        omega
      · intro c hc
        rw [List.mem_append, List.mem_singleton] at hc
        rcases hc with hc | hc
        · exact hdig c hc
        · subst hc
          exact isDigitChar_ofNat (n % 10) (by omega)

theorem natDigits_spec (n : ℕ) :
    digitsToNat (natDigits n) = n ∧
    (∀ c ∈ natDigits n, isDigitChar c = true) ∧ natDigits n ≠ [] :=
  natDigitsAux_spec n n (le_refl n)

theorem digitsToNat_pad (k : ℕ) (l : List Char) :
    digitsToNat (List.replicate k '0' ++ l) = digitsToNat l := by
  have hzero : ∀ j, List.foldl (fun acc c => acc * 10 + digitVal c) 0
      (List.replicate j '0') = 0 := by
    intro j
    induction j with
    | zero => rfl
    | succ i ihz => rw [List.replicate_succ, List.foldl_cons]; exact ihz
  rw [digitsToNat, List.foldl_append, hzero]
  rfl

theorem pyIntLit_digits (l : List Char) (hne : l ≠ [])
    (hd : ∀ c ∈ l, isDigitChar c = true) :
    pyIntLit l = some ((digitsToNat l : ℤ)) := by
  cases l with
  | nil => exact absurd rfl hne
  | cons c rest =>
    have hc := hd c (List.mem_cons_self c rest)
    have hnem := digit_ne c hc
    rw [pyIntLit, if_neg hnem.2.2.2.2.1, if_neg hnem.2.2.2.2.2.1,
      if_pos (List.all_eq_true.mpr hd)]

theorem pyIntLit_intRepr (n : ℤ) : pyIntLit (intRepr n) = some n := by
  by_cases hneg : n < 0
  · rw [intRepr, if_pos hneg, pyIntLit, if_pos rfl]
    obtain ⟨hval, hdig, hne⟩ := natDigits_spec n.natAbs
    rw [if_pos ⟨hne, List.all_eq_true.mpr hdig⟩, hval]
    congr 1
    omega
  · rw [intRepr, if_neg hneg]
    obtain ⟨hval, hdig, hne⟩ := natDigits_spec n.toNat
    rw [pyIntLit_digits _ hne hdig, hval]
    congr 1
    omega

theorem pyInt_pad (k m : ℕ) : pyInt (padZeros k (natDigits m)) = .ok (m : ℤ) := by
  obtain ⟨hval, hdig, hne⟩ := natDigits_spec m
  have hall : ∀ c ∈ padZeros k (natDigits m), isDigitChar c = true := by
    intro c hc
    rw [padZeros, List.mem_append] at hc
    rcases hc with hc | hc
    · rw [List.eq_of_mem_replicate hc]
      decide
    · exact hdig c hc
  have hne' : padZeros k (natDigits m) ≠ [] := by
    rw [padZeros]
    simp only [ne_eq, List.append_eq_nil]
    tauto
  rw [pyInt, pyIntLit_digits _ hne' hall, padZeros, digitsToNat_pad, hval]

theorem splitDash_no_dash (l : List Char) (h : ∀ c ∈ l, c ≠ '-') :
    splitDash l = [l] := by
  induction l with
  | nil => rfl
  | cons c rest ih =>
    rw [splitDash, if_neg (h c (List.mem_cons_self c rest)),
      ih (fun x hm => h x (List.mem_cons_of_mem _ hm))]

theorem splitDash_prefix (l : List Char) (r : List Char)
    (h : ∀ c ∈ l, c ≠ '-') :
    splitDash (l ++ '-' :: r) = l :: splitDash r := by
  induction l with
  | nil =>
    rw [List.nil_append, splitDash, if_pos rfl]
  | cons c rest ih =>
    rw [List.cons_append, splitDash, if_neg (h c (List.mem_cons_self c rest)),
      ih (fun x hm => h x (List.mem_cons_of_mem _ hm))]

theorem str2date_dateRepr (d : Date) (hv : d.Valid) :
    str2date (dateRepr d) = .ok d := by
  have hnodash : ∀ (m : ℕ) (k : ℕ), ∀ c ∈ padZeros k (natDigits m), c ≠ '-' := by
    intro m k c hc
    rw [padZeros, List.mem_append] at hc
    rcases hc with hc | hc
    · rw [List.eq_of_mem_replicate hc]
      decide
    · exact ((digit_ne c ((natDigits_spec m).2.1 c hc)).2.2.2.2.1)
  have hsplit : splitDash (dateRepr d) =
      [padZeros 4 (natDigits d.year), padZeros 2 (natDigits d.month),
        padZeros 2 (natDigits d.day)] := by
    rw [dateRepr, splitDash_prefix _ _ (hnodash d.year 4),
      splitDash_prefix _ _ (hnodash d.month 2),
      splitDash_no_dash _ (hnodash d.day 2)]
  rw [str2date, hsplit]
  simp only [mapPyInt, pyInt_pad]
  obtain ⟨hy1, hy2, hm1, hm2, hd1, hd2⟩ := hv
  rw [date_ctor, if_pos]
  · simp only [Int.toNat_natCast]
  · refine ⟨by omega, by omega, by omega, by omega, by omega, ?_⟩
    rw [Int.toNat_natCast, Int.toNat_natCast]
    omega

theorem mantissaOK_digits (l : List Char) (hne : l ≠ [])
    (hd : ∀ c ∈ l, isDigitChar c = true) : mantissaOK l = true := by
  have htw : l.takeWhile isDigitChar = l := List.takeWhile_eq_self_iff.mpr hd
  rw [mantissaOK]
  simp only [htw, List.drop_length]
  simpa using hne

theorem finiteTokOK_digits (l : List Char) (hne : l ≠ [])
    (hd : ∀ c ∈ l, isDigitChar c = true) : finiteTokOK l = true := by
  have htw : l.takeWhile (fun c => !(c == 'e' || c == 'E')) = l := by
    apply List.takeWhile_eq_self_iff.mpr
    intro c hc
    have h := digit_ne c (hd c hc)
    simp only [Bool.not_eq_true', Bool.or_eq_false_iff, beq_eq_false_iff_ne]
    exact ⟨h.2.2.2.2.2.2.1, h.2.2.2.2.2.2.2.1⟩
  rw [finiteTokOK]
  simp only [htw, List.drop_length]
  exact mantissaOK_digits l hne hd

theorem isFloatToken_digits (l : List Char) (hne : l ≠ [])
    (hd : ∀ c ∈ l, isDigitChar c = true) : isFloatToken l = true := by
  have hdrop : dropSign l = l := by
    cases l with
    | nil => rfl
    | cons c rest =>
      have h := digit_ne c (hd c (List.mem_cons_self c rest))
      rw [dropSign, if_neg]
      simp only [isSign, Bool.or_eq_true, beq_iff_eq, decide_eq_true_eq]
      tauto
  rw [isFloatToken]
  simp only [hdrop, finiteTokOK_digits l hne hd, Bool.true_or]

theorem isFloatToken_intRepr (n : ℤ) : isFloatToken (intRepr n) = true := by
  obtain ⟨hvalA, hdigA, hneA⟩ := natDigits_spec n.natAbs
  obtain ⟨hvalT, hdigT, hneT⟩ := natDigits_spec n.toNat
  by_cases hneg : n < 0
  · rw [intRepr, if_pos hneg, isFloatToken]
    have hdrop : dropSign ('-' :: natDigits n.natAbs) = natDigits n.natAbs := by
      rw [dropSign, if_pos]
      decide
    simp only [hdrop, finiteTokOK_digits _ hneA hdigA, Bool.true_or]
  · rw [intRepr, if_neg hneg]
    exact isFloatToken_digits _ hneT hdigT

theorem numTokOK_digits (l : List Char) (hne : l ≠ [])
    (hd : ∀ c ∈ l, isDigitChar c = true) : NumTokOK l := by
  refine ⟨hne, ?_, ?_⟩
  · cases l with
    | nil => simp
    | cons c rest =>
      have h := digit_ne c (hd c (List.mem_cons_self c rest))
      simp only [List.head?_cons, ne_eq, Option.some.injEq]
      exact h.2.2.2.1
  · intro c hc
    have h := digit_ne c (hd c hc)
    exact ⟨h.1, h.2.1, h.2.2.1⟩

theorem numTokOK_intRepr (n : ℤ) : NumTokOK (intRepr n) := by
  obtain ⟨hvalA, hdigA, hneA⟩ := natDigits_spec n.natAbs
  obtain ⟨hvalT, hdigT, hneT⟩ := natDigits_spec n.toNat
  by_cases hneg : n < 0
  · rw [intRepr, if_pos hneg]
    refine ⟨by simp, by simp, ?_⟩
    intro c hc
    rw [List.mem_cons] at hc
    rcases hc with hc | hc
    · subst hc
      refine ⟨by decide, by decide, by decide⟩
    · have h := digit_ne c (hdigA c hc)
      exact ⟨h.1, h.2.1, h.2.2.1⟩
  · rw [intRepr, if_neg hneg]
    exact numTokOK_digits _ hneT hdigT

theorem roundSig53_id (n : ℕ) (h : n ≤ 2 ^ 53) : roundSig53 n = n := by
  by_cases hlt : n < 2 ^ 53
  · rw [roundSig53, if_pos hlt]
  · have : n = 2 ^ 53 := by omega
    subst this
    decide

theorem floatIntRound_id (n : ℤ) (h : n.natAbs ≤ 2 ^ 53) : floatIntRound n = n := by
  by_cases hneg : n < 0
  · rw [floatIntRound, if_pos hneg, roundSig53_id n.natAbs (by omega)]
    omega
  · rw [floatIntRound, if_neg hneg, roundSig53_id n.toNat (by omega)]
    omega

theorem row_to_expense_expense_row (e : Expense)
    (hamt : isFloatToken e.amount.val.data = true)
    (hdate : e.create_at.Valid) :
    row_to_expense (expense_row e) = .ok (id_read_back e) := by
  rw [expense_row, row_to_expense]
  have hall : ([Cell.num ⟨intRepr e.id⟩, Cell.str e.description,
      Cell.num e.amount.val, Cell.str e.category,
      Cell.str ⟨dateRepr e.create_at⟩] : List Cell).all cellReadOK = true := by
    simp only [List.all_cons, List.all_nil, cellReadOK, Bool.and_true]
    rw [isFloatToken_intRepr, hamt]
    rfl
  rw [if_pos hall]
  have hid : cellToId (Cell.num ⟨intRepr e.id⟩) = .ok (floatIntRound e.id) := by
    rw [cellToId, numTokenToInt,
      show (⟨intRepr e.id⟩ : String).data = intRepr e.id from rfl,
      pyIntLit_intRepr]
  have hdt : cellToDate (Cell.str ⟨dateRepr e.create_at⟩) = .ok e.create_at := by
    rw [cellToDate,
      show (⟨dateRepr e.create_at⟩ : String).data = dateRepr e.create_at from rfl,
      str2date_dateRepr e.create_at hdate]
  have hlast : ([Cell.str e.description, Cell.num e.amount.val,
      Cell.str e.category, Cell.str ⟨dateRepr e.create_at⟩] : List Cell).getLast
        (List.cons_ne_nil _ _) = Cell.str ⟨dateRepr e.create_at⟩ := rfl
  rw [hid, hlast, hdt]
  rfl

theorem expense_row_ok (e : Expense) (hamt : NumTokOK e.amount.val.data) :
    expense_row e ≠ [] ∧ ∀ c ∈ expense_row e, CellOK c := by
  refine ⟨by simp [expense_row], ?_⟩
  intro c hc
  rw [expense_row] at hc
  simp only [List.mem_cons, List.not_mem_nil, or_false] at hc
  rcases hc with hc | hc | hc | hc | hc <;> subst hc
  · exact numTokOK_intRepr e.id
  · trivial
  · exact hamt
  · trivial
  · trivial

theorem expense_row_ne_header (e : Expense) : expense_row e ≠ header_row := by
  intro h
  rw [expense_row, header_row] at h
  injection h with h1 _
  exact Cell.noConfusion h1

theorem rows_to_expenses_map (l : List Expense)
    (h : ∀ e ∈ l, isFloatToken e.amount.val.data = true ∧ e.create_at.Valid) :
    rows_to_expenses (l.map expense_row) = .ok (l.map id_read_back) := by
  induction l with
  | nil => rfl
  | cons e es ih =>
    obtain ⟨h1, h2⟩ := h e (List.mem_cons_self e es)
    rw [List.map_cons, rows_to_expenses, row_to_expense_expense_row e h1 h2,
      ih (fun x hm => h x (List.mem_cons_of_mem _ hm)), List.map_cons]

/-- One save/load cycle at the field level: every field round-trips
unchanged except the id, which undergoes `int(float(str(id)))`. -/
theorem load_save (l : List Expense) (hdr : Bool)
    (h : ∀ e ∈ l, isFloatToken e.amount.val.data = true ∧
      NumTokOK e.amount.val.data ∧ e.create_at.Valid) :
    load_expenses (some (save_expenses l hdr)) = .ok (l.map id_read_back) := by
  rw [save_expenses, load_expenses]
  have hrows : ∀ row ∈ (if hdr then [header_row] else []) ++ l.map expense_row,
      row ≠ [] ∧ ∀ c ∈ row, CellOK c := by
    intro row hm
    rw [List.mem_append] at hm
    rcases hm with hm | hm
    · cases hdr with
      | true =>
        simp only [if_pos, List.mem_singleton] at hm
        subst hm
        refine ⟨by simp [header_row], ?_⟩
        intro c hc
        rw [header_row] at hc
        simp only [List.mem_cons, List.not_mem_nil, or_false] at hc
        rcases hc with hc | hc | hc | hc | hc <;> subst hc <;> trivial
      | false => simp at hm
    · obtain ⟨e, hme, heq⟩ := List.mem_map.mp hm
      subst heq
      exact expense_row_ok e (h e hme).2.1
  rw [parseCSV_writeCSV _ hrows]
  have hmapok := rows_to_expenses_map l (fun e hm => ⟨(h e hm).1, (h e hm).2.2⟩)
  cases hdr with
  | true =>
    simp only [if_pos, List.singleton_append]
    exact hmapok
  | false =>
    simp only [Bool.false_eq_true, if_false, List.nil_append]
    cases l with
    | nil => rfl
    | cons e es =>
      rw [List.map_cons]
      dsimp only
      rw [if_neg (expense_row_ne_header e), ← List.map_cons]
      exact hmapok

/-- C4 (amended): CSV round trip.  `save_expenses` followed by
`load_expenses` on the same path returns a list equal field-by-field to the
original, with or without a header and for the empty list, for every ledger
whose ids have absolute value at most `2^53` (the reader converts unquoted
fields with `float()`, so larger ids lose precision —
`save_load_round_trip_cex`).  The other hypotheses state facts true of
every Python value: `isFloatToken`/`NumTokOK` hold of the `repr` of every
float, and `Date.Valid` of every `datetime.date`. -/
theorem save_load_round_trip (l : List Expense) (include_header : Bool)
    (h : ∀ e ∈ l, isFloatToken e.amount.val.data = true ∧
      NumTokOK e.amount.val.data ∧ e.create_at.Valid ∧ e.id.natAbs ≤ 2 ^ 53) :
    load_expenses (some (save_expenses l include_header)) = .ok l := by
  rw [load_save l include_header
    (fun e hm => ⟨(h e hm).1, (h e hm).2.1, (h e hm).2.2.1⟩)]
  congr 1
  induction l with
  | nil => rfl
  | cons e es ih =>
    rw [List.map_cons,
      show id_read_back e = e from by
        rw [id_read_back, floatIntRound_id e.id (h e (List.mem_cons_self e es)).2.2.2],
      ih (fun x hm => h x (List.mem_cons_of_mem _ hm))]

/-- Witness for C4 (amended) on a concrete two-record ledger saved with a
header: loading returns it unchanged. -/
theorem save_load_round_trip_witness :
    (∀ e ∈ ([⟨1, "Lunch", ⟨"15.0"⟩, "Food", ⟨2025, 7, 1⟩⟩,
        ⟨2, "Book", ⟨"20.0"⟩, "Education", ⟨2025, 7, 2⟩⟩] : List Expense),
      isFloatToken e.amount.val.data = true ∧ NumTokOK e.amount.val.data ∧
        e.create_at.Valid ∧ e.id.natAbs ≤ 2 ^ 53) ∧
    load_expenses (some (save_expenses
      [⟨1, "Lunch", ⟨"15.0"⟩, "Food", ⟨2025, 7, 1⟩⟩,
       ⟨2, "Book", ⟨"20.0"⟩, "Education", ⟨2025, 7, 2⟩⟩] true)) =
      .ok [⟨1, "Lunch", ⟨"15.0"⟩, "Food", ⟨2025, 7, 1⟩⟩,
        ⟨2, "Book", ⟨"20.0"⟩, "Education", ⟨2025, 7, 2⟩⟩] :=
  ⟨by decide, save_load_round_trip _ true (by decide)⟩

/-- Counterexample for C4 as stated: for the id `2^53 + 1` the round trip
returns `2^53` — the `csv` reader's `float()` conversion of the unquoted id
rounds to the nearest double before `int()` truncates — so save-then-load
is not the identity on every list of expenses. -/
theorem save_load_round_trip_cex :
    load_expenses (some (save_expenses
      [⟨2 ^ 53 + 1, "Pad", ⟨"1.0"⟩, "Misc", ⟨2024, 1, 1⟩⟩] false)) =
      .ok [⟨2 ^ 53, "Pad", ⟨"1.0"⟩, "Misc", ⟨2024, 1, 1⟩⟩] ∧
    (⟨2 ^ 53, "Pad", ⟨"1.0"⟩, "Misc", ⟨2024, 1, 1⟩⟩ : Expense) ≠
      ⟨2 ^ 53 + 1, "Pad", ⟨"1.0"⟩, "Misc", ⟨2024, 1, 1⟩⟩ := by
  constructor
  · rw [load_save _ false (by decide)]
    decide
  · decide

/-- C5: malformed-row diagnostics.  A missing file loads as the empty
ledger, and a malformed row (here a one-field row, which fails the
unpacking `id_, *_, create_at = row`) aborts the whole read with no partial
result — but the error escaping is a plain uncaught `ValueError`, not the
`SystemExit` with a line-number message that the `except csv.Error`
handlers were written to produce: those handlers never fire for textual
content, contradicting the claimed line-number diagnostic. -/
theorem load_expenses_malformed_diagnostics :
    load_expenses none = .ok [] ∧
    load_expenses (some ("\"abc\"\r\n".data)) = .error .valueError ∧
    (∀ n, load_expenses (some ("\"abc\"\r\n".data)) ≠ .error (.systemExit n)) := by
  refine ⟨rfl, by decide, ?_⟩
  intro n hcon
  rw [show load_expenses (some ("\"abc\"\r\n".data)) = .error .valueError from by decide]
    at hcon
  simp at hcon

/-- Counterexample for C8 as stated: in the file written for a concrete
one-record ledger, the numeric `id` field is written bare — it is not true
that every field of every record row is quoted. -/
theorem save_expenses_all_quoted_cex :
    save_expenses [⟨1, "Lunch", ⟨"15.0"⟩, "Food", ⟨2024, 7, 1⟩⟩] false =
      ("1,\"Lunch\",15.0,\"Food\",\"2024-07-01\"\r\n").data ∧
    ¬ (∀ cell ∈ expense_row (⟨1, "Lunch", ⟨"15.0"⟩, "Food", ⟨2024, 7, 1⟩⟩ : Expense),
        (encodeCell cell).head? = some '"') := by
  constructor
  · decide
  · intro hall
    have h1 := hall (Cell.num "1") (by decide)
    exact absurd h1 (by decide)

/-- C8 (amended): with `QUOTE_NONNUMERIC` the writer quotes exactly the
non-numeric fields: `description`, `category` and `createdAt` are quoted in
every record row, while the numeric `id` and `amount` fields are written
bare. -/
theorem save_field_quoting (e : Expense) (hamt : NumTokOK e.amount.val.data) :
    expense_row e = [Cell.num ⟨intRepr e.id⟩, Cell.str e.description,
      Cell.num e.amount.val, Cell.str e.category,
      Cell.str ⟨dateRepr e.create_at⟩] ∧
    (encodeCell (Cell.num ⟨intRepr e.id⟩)).head? ≠ some '"' ∧
    (encodeCell (Cell.num e.amount.val)).head? ≠ some '"' ∧
    (encodeCell (Cell.str e.description)).head? = some '"' ∧
    (encodeCell (Cell.str e.category)).head? = some '"' ∧
    (encodeCell (Cell.str ⟨dateRepr e.create_at⟩)).head? = some '"' := by
  refine ⟨rfl, ?_, ?_, rfl, rfl, rfl⟩
  · exact (numTokOK_intRepr e.id).2.1
  · exact hamt.2.1

/-- Witness for C8 (amended) at a concrete expense. -/
theorem save_field_quoting_witness :
    NumTokOK ((⟨"15.0"⟩ : PyFloat).val.data) ∧
    (encodeCell (Cell.str "Lunch")).head? = some '"' ∧
    (encodeCell (Cell.num ⟨intRepr (1 : ℤ)⟩)).head? ≠ some '"' := by
  have h := save_field_quoting ⟨1, "Lunch", ⟨"15.0"⟩, "Food", ⟨2024, 7, 1⟩⟩ (by decide)
  exact ⟨by decide, h.2.2.2.1, h.2.1⟩

/-- C7: budget fail-open.  A missing budget file, an empty file, and any
content that is not well-formed JSON all load as exactly the default table
`[None, inf, inf, ..., inf]` (index 0 `None` followed by twelve positive
infinities), never a fatal error (`load_budgets` is total and raises
nothing). -/
theorem load_budgets_fail_open :
    load_budgets none = .arr (.null :: List.replicate 12 (.float "inf")) ∧
    load_budgets (some ("".data)) =
      .arr (.null :: List.replicate 12 (.float "inf")) ∧
    (∀ s, json_loads s = none →
      load_budgets (some s) = .arr (.null :: List.replicate 12 (.float "inf"))) := by
  refine ⟨rfl, rfl, ?_⟩
  intro s hs
  rw [load_budgets, hs]
  rfl

/-- Witness for C7 on the repository's own test fixture, the garbage
content `not a json`. -/
theorem load_budgets_fail_open_witness :
    json_loads ("not a json".data) = none ∧
    load_budgets (some ("not a json".data)) =
      .arr (.null :: List.replicate 12 (.float "inf")) :=
  ⟨rfl, load_budgets_fail_open.2.2 _ rfl⟩

/-- C9 (implicit): budget load performs no shape validation — whatever
parses as well-formed JSON is returned exactly as parsed, even when it is
not a 13-element array of numbers/null. -/
theorem load_budgets_no_validation (s : List Char) (v : JVal)
    (h : json_loads s = some v) : load_budgets (some s) = v := by
  rw [load_budgets, h]

/-- Witness for C9: the file content `[1, 2]` loads as the two-element
array `[1, 2]`, and `{}` loads as an empty mapping — not the default
13-slot table. -/
theorem load_budgets_no_validation_witness :
    (json_loads ("[1, 2]".data) = some (.arr [.int 1, .int 2]) ∧
      load_budgets (some ("[1, 2]".data)) = .arr [.int 1, .int 2]) ∧
    (json_loads ("{}".data) = some (.obj []) ∧
      load_budgets (some ("{}".data)) = .obj []) :=
  ⟨⟨rfl, load_budgets_no_validation _ _ rfl⟩,
    ⟨rfl, load_budgets_no_validation _ _ rfl⟩⟩

end ExpenseTracker
